import Mathlib

/-!
Verification of the remote service lifecycle orchestrator "god".

This file shallowly embeds the Go sources (package `runner`, package
`sshcmd`, `main.go`) into Lean: pure functions become Lean functions,
remote state becomes explicit state values, and fallible operations
return `Except`/`Option`.  Each claim about the program is stated and
settled as a theorem about these definitions.
-/

namespace God

/-! ## Basic string helpers mirroring the Go standard library -/

/-- Model of Go `strings.HasSuffix` (byte-level suffix test). -/
def goHasSuffix (s suf : String) : Bool :=
  suf.data.isSuffixOf s.data

/-- Model of Go `strings.TrimSuffix(s, suf)` as used by `Service.Exec`:
remove one trailing occurrence of the suffix when present. -/
def trimSuffix (s suf : String) : String :=
  if goHasSuffix s suf then (s.data.take (s.data.length - suf.data.length)).asString
  else s

/-- Occurrence test for a character-list pattern inside a character list
(used to model Go `strings.Contains`): true when `sub` occurs
contiguously in `s`. -/
def subOccurs (sub : List Char) : List Char → Bool
  | [] => sub.isEmpty
  | x :: rest => sub.isPrefixOf (x :: rest) || subOccurs sub rest

/-- Model of Go `strings.Contains (s, sub)`: the empty pattern occurs in
every string, otherwise `sub` must occur contiguously in `s`. -/
def goContains (s sub : String) : Bool :=
  if sub.data.isEmpty then true else subOccurs sub.data s.data

/-- Splits a character list at every occurrence of the character `c`,
keeping empty chunks (same chunks that Go `strings.Split` on a one-byte
separator yields). -/
def splitOnChar (c : Char) : List Char → List (List Char)
  | [] => [[]]
  | x :: rest =>
    match splitOnChar c rest with
    | [] => [[x]]
    | h :: t => if x = c then [] :: h :: t else (x :: h) :: t

/-- Directory part of a slash-separated path, as computed by the Go code
from `filepath.Split` with the trailing slash stripped: everything before
the last `/`, and `""` when the path has no `/`. -/
def dirPart (p : String) : String :=
  match p.data.reverse.dropWhile (· ≠ '/') with
  | [] => ""
  | _ :: rest => rest.reverse.asString

/-- Last component of a slash-separated path, as computed by Go
`filepath.Base` on the paths this program builds (nonempty, no trailing
slash). -/
def basePart (p : String) : String :=
  (p.data.reverse.takeWhile (· ≠ '/')).reverse.asString

/-- Model of Go `path/filepath.Clean` restricted to the `/` separator:
empty path becomes `.`, duplicate separators and `.` elements are
dropped, and `..` elements consume a preceding element (or are dropped at
an absolute root). -/
def pathClean (p : String) : String :=
  if p = "" then "." else
  let rooted := p.data.head? = some '/'
  let step : List String → String → List String := fun stack c =>
    if c = "" ∨ c = "." then stack
    else if c = ".." then
      match stack with
      | [] => if rooted then [] else [".."]
      | top :: rest => if top = ".." then ".." :: stack else rest
    else c :: stack
  let stack := ((splitOnChar '/' p.data).map List.asString).foldl step []
  let body := String.intercalate "/" stack.reverse
  if rooted then "/" ++ body
  else if body = "" then "." else body

/-- Model of Go `filepath.Join`: drop empty elements, join the rest with
`/` and clean the result; all empty yields `""`. -/
def filepathJoin (elems : List String) : String :=
  let xs := elems.filter (· ≠ "")
  if xs.isEmpty then "" else pathClean (String.intercalate "/" xs)

/-! ## Service configuration (`runner.Conf`)

Field names follow the Go struct `Conf` in `runner.go`; yaml keys are the
Go struct tags. `int` fields are modelled as `Int`, `[]string` as
`List String`. -/

structure Conf where
  User : String := ""
  Host : String := ""
  Port : String := ""
  PrivateKeyPath : String := ""
  GoExecPath : String := ""
  GoBinDirectory : String := ""
  GoInstall : String := ""
  GoPrivate : String := ""
  NetrcMachine : String := ""
  NetrcLogin : String := ""
  NetrcPassword : String := ""
  SystemdPath : String := ""
  SystemdServicesDirectory : String := ""
  SystemdLingerDirectory : String := ""
  ExecStart : String := ""
  WorkingDirectory : String := ""
  Environment : String := ""
  LogPath : String := ""
  RunAfterService : String := ""
  StartLimitBurst : Int := 0
  StartLimitIntervalSec : Int := 0
  RestartSec : Int := 0
  CopyFiles : List String := []
  Ignore : Bool := false
  deriving Repr, DecidableEq

/-! ## Unit description renderer (`serviceTemplate` / `GenerateServiceFile`)

The Go code renders the constant `serviceTemplate` with the service name
substituted for the one format verb and the configuration as template
data.  Template conditionals guarded by a string field emit their line
exactly when the field is nonempty, those guarded by an `int` field
exactly when it is nonzero; each conditional block contributes a single
`\n`-prefixed line because the template actions trim the surrounding
newlines.  HTML escaping of substituted values performed by Go's
`html/template` is not modelled; values are taken verbatim. -/

def generateServiceFile (name : String) (c : Conf) : String :=
  "[Unit]\nDescription=" ++ name
  ++ (if c.RunAfterService = "" then "" else "\nAfter=" ++ c.RunAfterService)
  ++ (if c.StartLimitBurst = 0 then "" else
        "\nStartLimitBurst=" ++ toString c.StartLimitBurst)
  ++ (if c.StartLimitIntervalSec = 0 then "" else
        "\nStartLimitIntervalSec=" ++ toString c.StartLimitIntervalSec)
  ++ "\n\n[Service]\nType=simple\nRestart=always"
  ++ (if c.RestartSec = 0 then "" else "\nRestartSec=" ++ toString c.RestartSec)
  ++ (if c.Environment = "" then "" else "\nEnvironment=" ++ c.Environment)
  ++ (if c.LogPath = "" then "" else "\nStandardOutput=append:" ++ c.LogPath)
  ++ (if c.LogPath = "" then "" else "\nStandardError=append:" ++ c.LogPath)
  ++ "\nWorkingDirectory=" ++ c.WorkingDirectory
  ++ "\nExecStart=" ++ c.ExecStart
  ++ "\n\n[Install]\nWantedBy=default.target"

/-- Configuration with only the mandatory unit fields set (all optional
unit fields empty or zero), as produced by default resolution. -/
def mandatoryConf (wd ex : String) : Conf :=
  { WorkingDirectory := wd, ExecStart := ex }

/-- Lines of a rendered text, split on newline. -/
def textLines (s : String) : List String :=
  (splitOnChar '\n' s.data).map List.asString

set_option maxRecDepth 8000 in
/-- C4 counterexample: the claim says that setting only the log-path
field adds exactly one line to the rendered unit text, but the template
emits two lines for a nonempty log path (a standard-output redirection
and a standard-error redirection), so the rendered text gains two lines,
not one. -/
theorem generateServiceFile_logPath_adds_two_lines :
    (textLines (generateServiceFile "s"
        { mandatoryConf "/w" "/e" with LogPath := "/l" })).length
      = (textLines (generateServiceFile "s" (mandatoryConf "/w" "/e"))).length + 2
    ∧ (textLines (generateServiceFile "s"
        { mandatoryConf "/w" "/e" with LogPath := "/l" })).length
      ≠ (textLines (generateServiceFile "s" (mandatoryConf "/w" "/e"))).length + 1 := by
  constructor
  · decide
  · decide

/-- C4 (amended): rendering a configuration with all optional fields
unset yields exactly the mandatory skeleton (header, working-directory
and start-command lines); setting any single one of run-after dependency,
start-limit burst, start-limit window or restart delay or environment
adds exactly its own line at its fixed position and none of the other
optional lines, while setting only the log path adds exactly the two
redirection lines (standard output and standard error) at their fixed
position. -/
theorem generateServiceFile_optional_fields
    (n wd ex va ve vl : String) (kb ki kr : Int)
    (ha : va ≠ "") (hb : kb ≠ 0) (hi : ki ≠ 0) (hr : kr ≠ 0)
    (he : ve ≠ "") (hl : vl ≠ "") :
    generateServiceFile n (mandatoryConf wd ex)
      = "[Unit]\nDescription=" ++ n
        ++ "\n\n[Service]\nType=simple\nRestart=always"
        ++ "\nWorkingDirectory=" ++ wd ++ "\nExecStart=" ++ ex
        ++ "\n\n[Install]\nWantedBy=default.target"
  ∧ generateServiceFile n { mandatoryConf wd ex with RunAfterService := va }
      = "[Unit]\nDescription=" ++ n ++ ("\nAfter=" ++ va)
        ++ "\n\n[Service]\nType=simple\nRestart=always"
        ++ "\nWorkingDirectory=" ++ wd ++ "\nExecStart=" ++ ex
        ++ "\n\n[Install]\nWantedBy=default.target"
  ∧ generateServiceFile n { mandatoryConf wd ex with StartLimitBurst := kb }
      = "[Unit]\nDescription=" ++ n ++ ("\nStartLimitBurst=" ++ toString kb)
        ++ "\n\n[Service]\nType=simple\nRestart=always"
        ++ "\nWorkingDirectory=" ++ wd ++ "\nExecStart=" ++ ex
        ++ "\n\n[Install]\nWantedBy=default.target"
  ∧ generateServiceFile n { mandatoryConf wd ex with StartLimitIntervalSec := ki }
      = "[Unit]\nDescription=" ++ n ++ ("\nStartLimitIntervalSec=" ++ toString ki)
        ++ "\n\n[Service]\nType=simple\nRestart=always"
        ++ "\nWorkingDirectory=" ++ wd ++ "\nExecStart=" ++ ex
        ++ "\n\n[Install]\nWantedBy=default.target"
  ∧ generateServiceFile n { mandatoryConf wd ex with RestartSec := kr }
      = "[Unit]\nDescription=" ++ n
        ++ "\n\n[Service]\nType=simple\nRestart=always"
        ++ ("\nRestartSec=" ++ toString kr)
        ++ "\nWorkingDirectory=" ++ wd ++ "\nExecStart=" ++ ex
        ++ "\n\n[Install]\nWantedBy=default.target"
  ∧ generateServiceFile n { mandatoryConf wd ex with Environment := ve }
      = "[Unit]\nDescription=" ++ n
        ++ "\n\n[Service]\nType=simple\nRestart=always"
        ++ ("\nEnvironment=" ++ ve)
        ++ "\nWorkingDirectory=" ++ wd ++ "\nExecStart=" ++ ex
        ++ "\n\n[Install]\nWantedBy=default.target"
  ∧ generateServiceFile n { mandatoryConf wd ex with LogPath := vl }
      = "[Unit]\nDescription=" ++ n
        ++ "\n\n[Service]\nType=simple\nRestart=always"
        ++ ("\nStandardOutput=append:" ++ vl) ++ ("\nStandardError=append:" ++ vl)
        ++ "\nWorkingDirectory=" ++ wd ++ "\nExecStart=" ++ ex
        ++ "\n\n[Install]\nWantedBy=default.target" := by
  refine ⟨?_, ?_, ?_, ?_, ?_, ?_, ?_⟩ <;>
    simp [generateServiceFile, mandatoryConf, ha, hb, hi, hr, he, hl]

/-- Witness for `generateServiceFile_optional_fields` at concrete
values. -/
theorem generateServiceFile_optional_fields_witness :
    ("other.service" : String) ≠ ""
    ∧ generateServiceFile "s" { mandatoryConf "/w" "/e" with RunAfterService := "other.service" }
      = "[Unit]\nDescription=" ++ "s" ++ ("\nAfter=" ++ "other.service")
        ++ "\n\n[Service]\nType=simple\nRestart=always"
        ++ "\nWorkingDirectory=" ++ "/w" ++ "\nExecStart=" ++ "/e"
        ++ "\n\n[Install]\nWantedBy=default.target" :=
  ⟨by decide,
   (generateServiceFile_optional_fields "s" "/w" "/e" "other.service" "A=1" "/l"
      3 10 5 (by decide) (by decide) (by decide) (by decide) (by decide)
      (by decide)).2.1⟩

/-! ## Remote execution (`sshcmd.Client.Exec` / `runner.Service.Exec`)

`Client.Exec` opens one session per command, captures stdout/stderr and
returns stdout with a nil error on success, or stderr together with the
non-nil error on failure; with no connected client it returns an empty
output and an error.  `Service.Exec` wraps it and strips one trailing
newline from the returned output.  The outcome of the remote command is
abstracted as a `CmdBehavior`. -/

structure CmdBehavior where
  stdout : String
  stderr : String
  success : Bool

/-- Model of `sshcmd.Client.Exec`: the returned pair is the output string
and whether a non-nil error was returned. -/
def clientExec (connected : Bool) (b : CmdBehavior) : String × Bool :=
  if ¬ connected then ("", true)
  else if b.success then (b.stdout, false)
  else (b.stderr, true)

/-- Model of `runner.Service.Exec`: run the command through the client
and strip one trailing newline from the output. -/
def serviceExec (connected : Bool) (b : CmdBehavior) : String × Bool :=
  let r := clientExec connected b
  (trimSuffix r.1 "\n", r.2)

/-- C6: over a connected session, a successful command returns its
standard output with one trailing newline stripped and no error, and a
failed command returns its standard error (also newline-stripped)
together with a non-nil error. -/
theorem serviceExec_output (b : CmdBehavior) :
    (b.success = true → serviceExec true b = (trimSuffix b.stdout "\n", false))
    ∧ (b.success = false → serviceExec true b = (trimSuffix b.stderr "\n", true)) := by
  constructor <;> intro h <;> simp [serviceExec, clientExec, h]

/-- Witness for `serviceExec_output` on concrete success and failure
behaviors. -/
theorem serviceExec_output_witness :
    serviceExec true ⟨"out\n", "", true⟩ = (trimSuffix "out\n" "\n", false)
    ∧ serviceExec true ⟨"", "oops\n", false⟩ = (trimSuffix "oops\n" "\n", true) :=
  ⟨(serviceExec_output ⟨"out\n", "", true⟩).1 rfl,
   (serviceExec_output ⟨"", "oops\n", false⟩).2 rfl⟩

/-! ## Install pipeline (`Service.Install`)

Each pipeline step is a Go method returning `error`; remote effects and
per-step reporting are abstracted into a step environment mapping each
step and the current remote state to a next state and an `error` result.
`serviceInstall` mirrors the body of `Service.Install`: ten steps in
source order, each guarded by an early `return err`.  Alongside the
result it records the list of steps that were executed. -/

inductive InstallStep
  | checkGo | checkSystemd | checkLingering | checkWorkingDir | authPrivateRepo
  | installExecutable | copyFiles | createServiceFile | reloadDaemon | enableService
  deriving Repr, DecidableEq

/-- Source order of the install pipeline steps. -/
def installStepOrder : List InstallStep :=
  [.checkGo, .checkSystemd, .checkLingering, .checkWorkingDir, .authPrivateRepo,
   .installExecutable, .copyFiles, .createServiceFile, .reloadDaemon, .enableService]

/-- One early-return block of `Service.Install`: run step `s` on state
`st`; a non-nil error aborts the pipeline immediately with that error
(the continuation `k` never runs), otherwise the remaining pipeline `k`
runs on the new state and `s` is recorded in front of its trace. -/
def stepThen {σ : Type} (env : InstallStep → σ → σ × Except String Unit)
    (s : InstallStep) (st : σ)
    (k : σ → σ × List InstallStep × Except String Unit) :
    σ × List InstallStep × Except String Unit :=
  let p := env s st
  match p.2 with
  | .error e => (p.1, [s], .error e)
  | .ok _ =>
    let r := k p.1
    (r.1, s :: r.2.1, r.2.2)

/-- Model of `Service.Install`: the ten steps in source order, each as
one early-return block; returns the final remote state, the executed
steps in order, and the overall result. -/
def serviceInstall {σ : Type} (env : InstallStep → σ → σ × Except String Unit)
    (s0 : σ) : σ × List InstallStep × Except String Unit :=
  stepThen env .checkGo s0 fun s1 =>
  stepThen env .checkSystemd s1 fun s2 =>
  stepThen env .checkLingering s2 fun s3 =>
  stepThen env .checkWorkingDir s3 fun s4 =>
  stepThen env .authPrivateRepo s4 fun s5 =>
  stepThen env .installExecutable s5 fun s6 =>
  stepThen env .copyFiles s6 fun s7 =>
  stepThen env .createServiceFile s7 fun s8 =>
  stepThen env .reloadDaemon s8 fun s9 =>
  stepThen env .enableService s9 fun s10 => (s10, [], .ok ())

/-- Fail-fast reference run, following the specification words: execute
the given steps in order and abort at the first failing step with that
step's error. -/
def specFailFast {σ : Type} (env : InstallStep → σ → σ × Except String Unit)
    (s0 : σ) : List InstallStep → σ × List InstallStep × Except String Unit
  | [] => (s0, [], .ok ())
  | s :: rest =>
    let p := env s s0
    match p.2 with
    | .error e => (p.1, [s], .error e)
    | .ok _ =>
      let r := specFailFast env p.1 rest
      (r.1, s :: r.2.1, r.2.2)

/-- C1: the install pipeline executes its steps in the fixed source
order and the first step that returns an error aborts the run with that
error (refinement of `Service.Install` by the fail-fast reference run);
in particular, when the verify-go step fails, only that step has
executed, the overall result is its error, and the package-install step
never runs. -/
theorem serviceInstall_failFast {σ : Type}
    (env : InstallStep → σ → σ × Except String Unit) (s0 : σ) :
    serviceInstall env s0 = specFailFast env s0 installStepOrder
    ∧ (∀ e, (env .checkGo s0).2 = .error e →
        (serviceInstall env s0).2.1 = [.checkGo]
        ∧ (serviceInstall env s0).2.2 = .error e
        ∧ InstallStep.installExecutable ∉ (serviceInstall env s0).2.1) := by
  have hcons : ∀ (s : InstallStep) (st : σ) (rest : List InstallStep),
      specFailFast env st (s :: rest)
        = stepThen env s st (fun st' => specFailFast env st' rest) := by
    intro s st rest
    rcases h : (env s st).2 with e | u <;>
      simp [specFailFast, stepThen, h]
  constructor
  · simp only [installStepOrder, hcons]
    rfl
  · intro e he
    simp [serviceInstall, stepThen, he]

/-- Witness for `serviceInstall_failFast`: with a stateless environment
whose verify-go step fails, the pipeline executes only that step, returns
its error, and never reaches the package-install step. -/
theorem serviceInstall_failFast_witness :
    (serviceInstall (σ := Unit)
        (fun s _ => ((), if s = .checkGo then .error "missing go" else .ok ())) ()).2.1
      = [.checkGo]
    ∧ (serviceInstall (σ := Unit)
        (fun s _ => ((), if s = .checkGo then .error "missing go" else .ok ())) ()).2.2
      = .error "missing go"
    ∧ InstallStep.installExecutable ∉
        (serviceInstall (σ := Unit)
          (fun s _ => ((), if s = .checkGo then .error "missing go" else .ok ())) ()).2.1 :=
  (serviceInstall_failFast
      (fun s _ => ((), if s = .checkGo then .error "missing go" else .ok ())) ()).2
    "missing go" rfl

/-! ## Uninstall pipeline (`Service.Uninstall`)

The uninstall body calls its seven step methods unconditionally in
source order, ignoring every returned error (best effort). -/

inductive UninstallStep
  | stopService | disableService | deleteServiceFile | reloadDaemon
  | resetFailedServices | deleteExecutable | deleteFiles
  deriving Repr, DecidableEq

/-- Source order of the uninstall pipeline steps. -/
def uninstallStepOrder : List UninstallStep :=
  [.stopService, .disableService, .deleteServiceFile, .reloadDaemon,
   .resetFailedServices, .deleteExecutable, .deleteFiles]

/-- Model of `Service.Uninstall`: run all seven steps in source order on
the threaded remote state, ignoring each step's error; returns the final
state and the executed steps paired with their results. -/
def serviceUninstall {σ : Type} (env : UninstallStep → σ → σ × Except String Unit)
    (s0 : σ) : σ × List (UninstallStep × Except String Unit) :=
  let p1 := env .stopService s0
  let p2 := env .disableService p1.1
  let p3 := env .deleteServiceFile p2.1
  let p4 := env .reloadDaemon p3.1
  let p5 := env .resetFailedServices p4.1
  let p6 := env .deleteExecutable p5.1
  let p7 := env .deleteFiles p6.1
  (p7.1,
   [(.stopService, p1.2), (.disableService, p2.2), (.deleteServiceFile, p3.2),
    (.reloadDaemon, p4.2), (.resetFailedServices, p5.2),
    (.deleteExecutable, p6.2), (.deleteFiles, p7.2)])

/-- C2: every uninstall run executes every step, in the fixed source
order, regardless of the outcome of any earlier step (the executed trace
is the full step order for every environment and start state); in
particular a failing stop-unit step does not prevent the disable-unit
step or any later step from executing. -/
theorem serviceUninstall_runsAllSteps {σ : Type}
    (env : UninstallStep → σ → σ × Except String Unit) (s0 : σ) :
    ((serviceUninstall env s0).2.map Prod.fst = uninstallStepOrder) := rfl

/-! ## Environment overlay (`loadConfFromEnv` / `serviceNameToEnvName`)

`loadConfFromEnv` walks the `Conf` struct fields by reflection; for every
field carrying a yaml tag it reads the environment variable named
`<envName(serviceName)>_<ToUpper(tag)>` and, when the value is nonempty,
overwrites the field — `string` fields with the raw value, `int` fields
with the `strconv.Atoi` parse when it succeeds.  The type switch has no
case for `bool` or `[]string`, so the `ignore` and `copy_files` fields
are never overlaid.  The reflection loop is modelled as one explicit
update per tagged field. -/

/-- Uppercasing of ASCII strings (Go `strings.ToUpper` on the field tags
and mapped service names, all ASCII). -/
def upperAscii (s : String) : String := (s.data.map Char.toUpper).asString

/-- The per-character mapping of `serviceNameToEnvName`: keep ASCII
letters and digits, replace everything else by an underscore. -/
def confTrimChar (r : Char) : Char :=
  if ('A' ≤ r ∧ r ≤ 'Z') ∨ ('a' ≤ r ∧ r ≤ 'z') ∨ ('0' ≤ r ∧ r ≤ '9') then r
  else '_'

/-- Model of `serviceNameToEnvName`: empty name maps to `""`; otherwise
map every non-alphanumeric character to `_`, uppercase the result, and
put an extra leading underscore when the first character is a digit. -/
def serviceNameToEnvName (serviceName : String) : String :=
  match serviceName.data.map (fun c => Char.toUpper (confTrimChar c)) with
  | [] => ""
  | c :: cs =>
    if '0' ≤ c ∧ c ≤ '9' then ('_' :: c :: cs).asString else (c :: cs).asString

/-- Environment-variable name consulted for the field with yaml tag
`tag` of service `serviceName` (Go format string `"%s_%s"`). -/
def envVarName (serviceName tag : String) : String :=
  serviceNameToEnvName serviceName ++ "_" ++ upperAscii tag

/-- Digit-run value for `goAtoi`: all characters must be decimal digits
and there must be at least one. -/
def digitsNat : List Char → Option Nat
  | [] => none
  | ds =>
    if ds.all Char.isDigit then
      some (ds.foldl (fun a c => a * 10 + (c.toNat - 48)) 0)
    else none

/-- Model of Go `strconv.Atoi` on a 64-bit platform: optional sign
followed by at least one digit; a value outside the int64 range
[-9223372036854775808, 9223372036854775807] is a range error (non-nil
error in Go, `none` here). -/
def goAtoi (s : String) : Option Int :=
  match s.data with
  | [] => none
  | c :: rest =>
    if c = '+' then
      (digitsNat rest).bind (fun n =>
        if n ≤ 9223372036854775807 then some (Int.ofNat n) else none)
    else if c = '-' then
      (digitsNat rest).bind (fun n =>
        if n ≤ 9223372036854775808 then some (-(Int.ofNat n)) else none)
    else
      (digitsNat (c :: rest)).bind (fun n =>
        if n ≤ 9223372036854775807 then some (Int.ofNat n) else none)

/-- Overlay of one string-typed field from the environment. -/
def overlayString (env : String → String) (serviceName tag cur : String) : String :=
  let v := env (envVarName serviceName tag)
  if v ≠ "" then v else cur

/-- Overlay of one int-typed field from the environment: a nonempty
value replaces the field only when `Atoi` succeeds. -/
def overlayInt (env : String → String) (serviceName tag : String) (cur : Int) : Int :=
  let v := env (envVarName serviceName tag)
  if v ≠ "" then
    match goAtoi v with
    | some n => n
    | none => cur
  else cur

/-- Model of `loadConfFromEnv` for one service: every tagged field is
overlaid from its environment variable according to its type; the
`bool`-typed `ignore` and `[]string`-typed `copy_files` fields fall
through the type switch unchanged. -/
def loadConfFromEnvService (env : String → String) (serviceName : String)
    (c : Conf) : Conf :=
  { User := overlayString env serviceName "user" c.User
    Host := overlayString env serviceName "host" c.Host
    Port := overlayString env serviceName "port" c.Port
    PrivateKeyPath := overlayString env serviceName "private_key_path" c.PrivateKeyPath
    GoExecPath := overlayString env serviceName "go_exec_path" c.GoExecPath
    GoBinDirectory := overlayString env serviceName "go_bin_directory" c.GoBinDirectory
    GoInstall := overlayString env serviceName "go_install" c.GoInstall
    GoPrivate := overlayString env serviceName "go_private" c.GoPrivate
    NetrcMachine := overlayString env serviceName "netrc_machine" c.NetrcMachine
    NetrcLogin := overlayString env serviceName "netrc_login" c.NetrcLogin
    NetrcPassword := overlayString env serviceName "netrc_password" c.NetrcPassword
    SystemdPath := overlayString env serviceName "systemd_path" c.SystemdPath
    SystemdServicesDirectory :=
      overlayString env serviceName "systemd_services_directory" c.SystemdServicesDirectory
    SystemdLingerDirectory :=
      overlayString env serviceName "systemd_linger_directory" c.SystemdLingerDirectory
    ExecStart := overlayString env serviceName "exec_start" c.ExecStart
    WorkingDirectory := overlayString env serviceName "working_directory" c.WorkingDirectory
    Environment := overlayString env serviceName "environment" c.Environment
    LogPath := overlayString env serviceName "log_path" c.LogPath
    RunAfterService := overlayString env serviceName "run_after_service" c.RunAfterService
    StartLimitBurst := overlayInt env serviceName "start_limit_burst" c.StartLimitBurst
    StartLimitIntervalSec :=
      overlayInt env serviceName "start_limit_interval_sec" c.StartLimitIntervalSec
    RestartSec := overlayInt env serviceName "restart_sec" c.RestartSec
    CopyFiles := c.CopyFiles
    Ignore := c.Ignore }

/-- Environment holding only the variable `FOO_IGNORE`. -/
def envIgnoreOnly : String → String :=
  fun k => if k = "FOO_IGNORE" then "true" else ""

/-- C9 counterexample: the claim quantifies over every configuration
field, but the reflection type switch handles only `string` and `int`
fields; for service `foo` and the bool field `ignore`, the nonempty
variable `FOO_IGNORE=true` does not override the YAML value — the loaded
configuration is completely unchanged. -/
theorem loadConfFromEnv_skips_bool_field :
    envVarName "foo" "ignore" = "FOO_IGNORE"
    ∧ envIgnoreOnly "FOO_IGNORE" = "true"
    ∧ loadConfFromEnvService envIgnoreOnly "foo" { Host := "h", GoInstall := "g" }
        = { Host := "h", GoInstall := "g" } := by
  refine ⟨by decide, rfl, by decide⟩

/-- C9 (amended): for every service name, every string-typed
configuration field is overridden by its nonempty environment variable
(in particular `host` from `FOO_HOST`), every int-typed field is
overridden exactly when the value parses as an integer (Go `Atoi`,
int64 range included) — a parsed value replaces the field and a failing
or out-of-range parse leaves it at the YAML value — and the bool-typed
`ignore` and list-typed `copy_files` fields are never overlaid. -/
theorem loadConfFromEnv_overlays (env : String → String) (name : String) (c : Conf) :
    (env (envVarName name "user") ≠ "" →
      (loadConfFromEnvService env name c).User = env (envVarName name "user"))
    ∧ (env (envVarName name "host") ≠ "" →
      (loadConfFromEnvService env name c).Host = env (envVarName name "host"))
    ∧ (env (envVarName name "port") ≠ "" →
      (loadConfFromEnvService env name c).Port = env (envVarName name "port"))
    ∧ (env (envVarName name "private_key_path") ≠ "" →
      (loadConfFromEnvService env name c).PrivateKeyPath
        = env (envVarName name "private_key_path"))
    ∧ (env (envVarName name "go_exec_path") ≠ "" →
      (loadConfFromEnvService env name c).GoExecPath
        = env (envVarName name "go_exec_path"))
    ∧ (env (envVarName name "go_bin_directory") ≠ "" →
      (loadConfFromEnvService env name c).GoBinDirectory
        = env (envVarName name "go_bin_directory"))
    ∧ (env (envVarName name "go_install") ≠ "" →
      (loadConfFromEnvService env name c).GoInstall
        = env (envVarName name "go_install"))
    ∧ (env (envVarName name "go_private") ≠ "" →
      (loadConfFromEnvService env name c).GoPrivate
        = env (envVarName name "go_private"))
    ∧ (env (envVarName name "netrc_machine") ≠ "" →
      (loadConfFromEnvService env name c).NetrcMachine
        = env (envVarName name "netrc_machine"))
    ∧ (env (envVarName name "netrc_login") ≠ "" →
      (loadConfFromEnvService env name c).NetrcLogin
        = env (envVarName name "netrc_login"))
    ∧ (env (envVarName name "netrc_password") ≠ "" →
      (loadConfFromEnvService env name c).NetrcPassword
        = env (envVarName name "netrc_password"))
    ∧ (env (envVarName name "systemd_path") ≠ "" →
      (loadConfFromEnvService env name c).SystemdPath
        = env (envVarName name "systemd_path"))
    ∧ (env (envVarName name "systemd_services_directory") ≠ "" →
      (loadConfFromEnvService env name c).SystemdServicesDirectory
        = env (envVarName name "systemd_services_directory"))
    ∧ (env (envVarName name "systemd_linger_directory") ≠ "" →
      (loadConfFromEnvService env name c).SystemdLingerDirectory
        = env (envVarName name "systemd_linger_directory"))
    ∧ (env (envVarName name "exec_start") ≠ "" →
      (loadConfFromEnvService env name c).ExecStart
        = env (envVarName name "exec_start"))
    ∧ (env (envVarName name "working_directory") ≠ "" →
      (loadConfFromEnvService env name c).WorkingDirectory
        = env (envVarName name "working_directory"))
    ∧ (env (envVarName name "environment") ≠ "" →
      (loadConfFromEnvService env name c).Environment
        = env (envVarName name "environment"))
    ∧ (env (envVarName name "log_path") ≠ "" →
      (loadConfFromEnvService env name c).LogPath
        = env (envVarName name "log_path"))
    ∧ (env (envVarName name "run_after_service") ≠ "" →
      (loadConfFromEnvService env name c).RunAfterService
        = env (envVarName name "run_after_service"))
    ∧ (∀ n : Int, goAtoi (env (envVarName name "start_limit_burst")) = some n →
      (loadConfFromEnvService env name c).StartLimitBurst = n)
    ∧ (goAtoi (env (envVarName name "start_limit_burst")) = none →
      (loadConfFromEnvService env name c).StartLimitBurst = c.StartLimitBurst)
    ∧ (∀ n : Int, goAtoi (env (envVarName name "start_limit_interval_sec")) = some n →
      (loadConfFromEnvService env name c).StartLimitIntervalSec = n)
    ∧ (goAtoi (env (envVarName name "start_limit_interval_sec")) = none →
      (loadConfFromEnvService env name c).StartLimitIntervalSec
        = c.StartLimitIntervalSec)
    ∧ (∀ n : Int, goAtoi (env (envVarName name "restart_sec")) = some n →
      (loadConfFromEnvService env name c).RestartSec = n)
    ∧ (goAtoi (env (envVarName name "restart_sec")) = none →
      (loadConfFromEnvService env name c).RestartSec = c.RestartSec)
    ∧ (loadConfFromEnvService env name c).CopyFiles = c.CopyFiles
    ∧ (loadConfFromEnvService env name c).Ignore = c.Ignore := by
  have hint : ∀ (tag : String) (cur : Int) (n : Int),
      goAtoi (env (envVarName name tag)) = some n →
      overlayInt env name tag cur = n := by
    intro tag cur n h
    have hne : env (envVarName name tag) ≠ "" := by
      intro h0
      rw [h0] at h
      simp [goAtoi] at h
    simp [overlayInt, hne, h]
  have hnone : ∀ (tag : String) (cur : Int),
      goAtoi (env (envVarName name tag)) = none →
      overlayInt env name tag cur = cur := by
    intro tag cur h
    by_cases hv : env (envVarName name tag) = ""
    · simp [overlayInt, hv]
    · simp [overlayInt, hv, h]
  refine ⟨?_, ?_, ?_, ?_, ?_, ?_, ?_, ?_, ?_, ?_, ?_, ?_, ?_, ?_, ?_, ?_, ?_,
    ?_, ?_, ?_, ?_, ?_, ?_, ?_, ?_, ?_, ?_⟩ <;>
    first
      | (intro h; exact hnone _ _ h)
      | (intro h; simp [loadConfFromEnvService, overlayString, h])
      | (intro n h; exact hint _ _ n h)
      | rfl

/-- Environment holding only the variable `FOO_HOST`. -/
def envHostOnly : String → String :=
  fun k => if k = "FOO_HOST" then "1.2.3.4" else ""

/-- Witness for `loadConfFromEnv_overlays`: `FOO_HOST=1.2.3.4` overrides
the YAML host of service `foo`. -/
theorem loadConfFromEnv_overlays_witness :
    envHostOnly (envVarName "foo" "host") ≠ ""
    ∧ (loadConfFromEnvService envHostOnly "foo"
        { Host := "yaml.example.org", GoInstall := "g" }).Host
      = envHostOnly (envVarName "foo" "host") :=
  ⟨by decide,
   (loadConfFromEnv_overlays envHostOnly "foo"
      { Host := "yaml.example.org", GoInstall := "g" }).2.1 (by decide)⟩

/-! ## Executable name extraction (`getExec` / default `ExecStart`)

`getExec` applies `packageRegExp`, the regular expression
with pattern slash?, capture group of one or more word-or-hyphen
characters, an at-sign, then anything, and returns the first capture of
the leftmost match.  A match at the leftmost possible position takes the
maximal run of word-or-hyphen characters immediately preceding the first
at-sign that has at least one such character before it (runs cannot span
other characters, and anchoring an optional slash earlier never changes
the capture), so the function is implemented as a single left-to-right
scan accumulating the current run. -/

/-- Character class of the capture group: hyphen, underscore, ASCII
letters and digits. -/
def isWordDash (c : Char) : Bool :=
  c = '-' || c = '_' || c.isAlphanum

/-- Scan for the leftmost regexp match: `run` is the reversed run of
word-or-hyphen characters read immediately before the current
position. -/
def getExecAux : List Char → List Char → Option (List Char)
  | [], _ => none
  | c :: rest, run =>
    if c = '@' then
      if run.isEmpty then getExecAux rest [] else some run.reverse
    else if isWordDash c then getExecAux rest (c :: run)
    else getExecAux rest []

/-- Model of `runner.getExec`: capture of the leftmost `packageRegExp`
match, or `""` when the expression does not match. -/
def getExec (packageName : String) : String :=
  match getExecAux packageName.data [] with
  | some cs => cs.asString
  | none => ""

/-- Default resolution of `ExecStart` in `Runner.MakeService`: an
explicitly configured start command is kept; otherwise, when `getExec`
extracts a name from the package reference, the start command becomes
the Go binary directory joined with that name, and otherwise it stays
empty. -/
def resolveExecStart (goBinDirectory goInstall execStart : String) : String :=
  if execStart = "" then
    let e := getExec goInstall
    if e ≠ "" then filepathJoin [goBinDirectory, e] else execStart
  else execStart

/-- C10 counterexample: the claim says the extracted name is the last
path segment preceding the at-sign, but for a package whose last segment
contains a dot the regular expression captures only the trailing
word-character run — `github.com/pioz/my.app at latest` yields `app`,
not `my.app`, and the derived start command ends in `/app`. -/
theorem getExec_not_last_path_segment :
    getExec "github.com/pioz/my.app@latest" = "app"
    ∧ getExec "github.com/pioz/my.app@latest" ≠ "my.app"
    ∧ resolveExecStart "/root/go/bin" "github.com/pioz/my.app@latest" ""
        = "/root/go/bin/app" := by
  refine ⟨rfl, by decide, ?_⟩
  decide

/-- Step equation of the scan: a capture-class character joins the
run. -/
theorem getExecAux_cons_word (x : Char) (xs run : List Char)
    (h1 : x ≠ '@') (h2 : isWordDash x = true) :
    getExecAux (x :: xs) run = getExecAux xs (x :: run) := by
  simp [getExecAux, h1, h2]

/-- Step equation of the scan: a character outside the capture class
(other than the at-sign) resets the run. -/
theorem getExecAux_cons_other (x : Char) (xs run : List Char)
    (h1 : x ≠ '@') (h2 : isWordDash x = false) :
    getExecAux (x :: xs) run = getExecAux xs [] := by
  simp [getExecAux, h1, h2]

/-- Scanning a run of capture-class characters that ends at an at-sign
yields the accumulated run (or moves on when the run is empty). -/
theorem getExecAux_run (post : List Char) : ∀ (seg run : List Char),
    (∀ c ∈ seg, isWordDash c = true) →
    getExecAux (seg ++ '@' :: post) run
      = if (run.reverse ++ seg).isEmpty then getExecAux post []
        else some (run.reverse ++ seg) := by
  intro seg
  induction seg with
  | nil =>
    intro run _
    cases run with
    | nil => simp [getExecAux]
    | cons r rs => simp [getExecAux]
  | cons c cs ih =>
    intro run h
    have hc : isWordDash c = true := h c (by simp)
    have hca : c ≠ '@' := by
      intro h0
      rw [h0] at hc
      simp [isWordDash, Char.isAlphanum, Char.isAlpha, Char.isUpper,
        Char.isLower, Char.isDigit] at hc
    have hrest : ∀ d ∈ cs, isWordDash d = true := fun d hd => h d (by simp [hd])
    rw [List.cons_append, getExecAux_cons_word c _ run hca hc, ih (c :: run) hrest]
    simp [List.reverse_cons, List.append_assoc]

/-- Scanning past characters that contain no at-sign and end with a
character outside the capture class leaves the scanner with an empty
run. -/
theorem getExecAux_skip (ys : List Char) : ∀ (xs : List Char),
    '@' ∉ xs →
    xs.getLast?.all (fun c => ! isWordDash c) = true →
    ∀ run, getExecAux (xs ++ ys) run
      = getExecAux ys (if xs.isEmpty then run else []) := by
  intro xs
  induction xs with
  | nil => intro _ _ run; simp
  | cons c cs ih =>
    intro hmem hlast run
    have hca : c ≠ '@' := by
      intro h0
      exact hmem (by simp [h0])
    have hmem' : '@' ∉ cs := fun h0 => hmem (by simp [h0])
    cases cs with
    | nil =>
      have hcw : isWordDash c = false := by
        simpa using hlast
      rw [List.cons_append, List.nil_append,
        getExecAux_cons_other c ys run hca hcw]
      simp
    | cons d ds =>
      have hlast' : (d :: ds).getLast?.all (fun c => ! isWordDash c) = true := by
        simpa [List.getLast?_cons_cons] using hlast
      by_cases hcw : isWordDash c = true
      · rw [List.cons_append, getExecAux_cons_word c _ run hca hcw,
          ih hmem' hlast' (c :: run)]
        simp
      · rw [List.cons_append,
          getExecAux_cons_other c _ run hca (by simpa using hcw),
          ih hmem' hlast' []]
        simp

/-- Characters that never contain an at-sign never produce a match. -/
theorem getExecAux_none : ∀ (cs : List Char), '@' ∉ cs →
    ∀ run, getExecAux cs run = none := by
  intro cs
  induction cs with
  | nil => intro _ _; rfl
  | cons c rest ih =>
    intro hmem run
    have hca : c ≠ '@' := by
      intro h0
      exact hmem (by simp [h0])
    have hmem' : '@' ∉ rest := fun h0 => hmem (by simp [h0])
    by_cases hcw : isWordDash c = true
    · simp [getExecAux, hca, hcw, ih hmem']
    · simp [getExecAux, hca, hcw, ih hmem']

/-- C10 (amended): an explicitly configured start command is kept
unchanged; a package reference without an at-sign derives no default and
the start command stays empty; and when the package reference has the
form `pre ++ seg ++ at-sign ++ rest` where `seg` is a nonempty run of
characters from the capture class (letters, digits, underscore, hyphen)
delimited on the left (start of string or a character outside the class)
and no at-sign occurs earlier, the extracted executable name is exactly
`seg` — the trailing capture-class run before the first eligible at-sign,
not necessarily a full path segment — and the default start command is
the Go binary directory joined with it. -/
theorem resolveExecStart_default (bin inst ex : String) :
    (ex ≠ "" → resolveExecStart bin inst ex = ex)
    ∧ ('@' ∉ inst.data →
        getExec inst = "" ∧ resolveExecStart bin inst "" = "")
    ∧ (∀ pre0 seg post : List Char,
        inst.data = pre0 ++ (seg ++ '@' :: post) →
        (∀ c ∈ seg, isWordDash c = true) →
        seg ≠ [] →
        pre0.getLast?.all (fun c => ! isWordDash c) = true →
        '@' ∉ pre0 →
        getExec inst = seg.asString
        ∧ resolveExecStart bin inst "" = filepathJoin [bin, seg.asString]) := by
  refine ⟨fun h => by simp [resolveExecStart, h], ?_, ?_⟩
  · intro h
    have h0 : getExecAux inst.data [] = none := getExecAux_none inst.data h []
    constructor
    · simp [getExec, h0]
    · simp [resolveExecStart, getExec, h0]
  · intro pre0 seg post hd hseg hne hlast hpre
    have h1 : getExecAux inst.data [] = some seg := by
      rw [hd, getExecAux_skip _ pre0 hpre hlast []]
      have : (if pre0.isEmpty then ([] : List Char) else []) = [] := by
        simp
      rw [this, getExecAux_run post seg [] hseg]
      simp [List.isEmpty_iff, hne]
    have h2 : getExec inst = seg.asString := by simp [getExec, h1]
    have h3 : seg.asString ≠ "" := by
      simpa [List.asString, String.ext_iff] using hne
    exact ⟨h2, by simp [resolveExecStart, h2, h3]⟩

/-- Witness for `resolveExecStart_default`: the claim's own example —
`github.com/pioz/srv at latest` yields executable name `srv` and start
command `goBin/srv`. -/
theorem resolveExecStart_default_witness :
    getExec "github.com/pioz/srv@latest" = "srv"
    ∧ resolveExecStart "/home/pioz/go/bin" "github.com/pioz/srv@latest" ""
        = filepathJoin ["/home/pioz/go/bin", "srv"] :=
  (resolveExecStart_default "/home/pioz/go/bin" "github.com/pioz/srv@latest" "").2.2
    "github.com/pioz/".data "srv".data "latest".data
    (by decide) (by decide) (by decide) (by decide) (by decide)

/-! ## Private-repository credentials (`Service.AuthPrivateRepo`)

With a configured `go_private`, the step reads the remote credential
file (`cat ~/.netrc`, newline-trimmed by `Service.Exec`), and when the
machine/login/password line does not occur in the output it rewrites the
file with an echo: just the new line when the read failed (no file),
otherwise the new line followed by the old content — the entry is written
in front of the previous content.  The remote file is modelled as
`Option String` (`none` = absent), the text a failing `cat` prints on
stderr as `catErr`, and a failing rewrite as `echoFails`. -/

/-- The machine/login/password line written to the credential file. -/
def netrcAuthLine (c : Conf) : String :=
  "machine " ++ c.NetrcMachine ++ " login " ++ c.NetrcLogin
    ++ " password " ++ c.NetrcPassword

/-- Model of `Service.AuthPrivateRepo` acting on the remote credential
file; the result is the new file state, or an error when the rewrite
command fails. -/
def authPrivateRepo (c : Conf) (netrc : Option String) (catErr : String)
    (echoFails : Bool) : Except String (Option String) :=
  if c.GoPrivate = "" then .ok netrc else
  let auth := netrcAuthLine c
  let output := match netrc with
    | some content => trimSuffix content "\n"
    | none => trimSuffix catErr "\n"
  if goContains output auth then .ok netrc
  else if echoFails then .error "write failed"
  else match netrc with
    | none => .ok (some (auth ++ "\n"))
    | some _ => .ok (some (auth ++ "\n" ++ output ++ "\n"))

/-- Configuration used by the credential counterexample. -/
def netrcConf : Conf :=
  { GoPrivate := "github.com/pioz/private", NetrcMachine := "m",
    NetrcLogin := "l", NetrcPassword := "p" }

/-- C8 counterexample: the claim says the credential triple is appended
to the remote file, but the code rewrites the file with the new line in
front of the old content — the result is the entry prepended, which
differs from the appended file. -/
theorem authPrivateRepo_prepends :
    authPrivateRepo netrcConf (some "machine a login b password c\n") "" false
      = .ok (some "machine m login l password p\nmachine a login b password c\n")
    ∧ ("machine m login l password p\nmachine a login b password c\n" : String)
      ≠ "machine a login b password c\n" ++ "machine m login l password p\n" := by
  refine ⟨rfl, by decide⟩

/-- C8 (amended): with a private-package credential configured, the step
prepends (not appends) the machine/login/password line to the remote
credential file only when an identical line is not already contained in
the file's (newline-trimmed) content: if the line is present the file is
left unchanged and the step succeeds even if the rewrite would fail; if
it is absent the file becomes the line followed by the old content, or
the line alone when the file did not exist. -/
theorem authPrivateRepo_spec (c : Conf) (netrc : Option String)
    (catErr : String) (echoFails : Bool) (hp : c.GoPrivate ≠ "") :
    (goContains
        (match netrc with
          | some content => trimSuffix content "\n"
          | none => trimSuffix catErr "\n") (netrcAuthLine c) = true →
      authPrivateRepo c netrc catErr echoFails = .ok netrc)
    ∧ (∀ content, netrc = some content →
        goContains (trimSuffix content "\n") (netrcAuthLine c) = false →
        echoFails = false →
        authPrivateRepo c netrc catErr echoFails
          = .ok (some (netrcAuthLine c ++ "\n" ++ trimSuffix content "\n" ++ "\n")))
    ∧ (netrc = none →
        goContains (trimSuffix catErr "\n") (netrcAuthLine c) = false →
        echoFails = false →
        authPrivateRepo c netrc catErr echoFails
          = .ok (some (netrcAuthLine c ++ "\n"))) := by
  refine ⟨?_, ?_, ?_⟩
  · intro h
    simp [authPrivateRepo, hp, h]
  · intro content hc hocc he
    subst hc he
    simp [authPrivateRepo, hp, hocc]
  · intro hc hocc he
    subst hc he
    simp [authPrivateRepo, hp, hocc]

/-- Witness for `authPrivateRepo_spec`: a file already containing the
identical line is left unchanged and the step succeeds even when the
rewrite command would fail. -/
theorem authPrivateRepo_spec_witness :
    authPrivateRepo netrcConf
        (some "machine m login l password p\nmachine a login b password c\n") "" true
      = .ok (some "machine m login l password p\nmachine a login b password c\n") :=
  (authPrivateRepo_spec netrcConf
      (some "machine m login l password p\nmachine a login b password c\n") "" true
      (by decide)).1 (by decide)

/-! ## Slash-path components

Infrastructure for the remote file-system model: a path's ascending
prefix joins (`a`, `a/b`, `a/b/c` for `a/b/c`), its strict ancestors and
its parent, all computed from the chunks between `/` separators. -/

/-- Inverse of `splitOnChar`: join chunks with the separator. -/
def joinChunks (c : Char) : List (List Char) → List Char
  | [] => []
  | [k] => k
  | k :: ks => k ++ c :: joinChunks c ks

/-- Chunks of a path between `/` separators. -/
def pathChunks (p : String) : List (List Char) := splitOnChar '/' p.data

/-- Ascending prefix joins of a path: the join of the first `i + 1`
chunks for every `i`. -/
def ascJoins (p : String) : List String :=
  (List.range (pathChunks p).length).map
    (fun i => (joinChunks '/' ((pathChunks p).take (i + 1))).asString)

/-- The directories `MkdirAll` ensures for a path: its nonempty
ascending prefix joins, ending with the path itself. -/
def mkdirAllPrefixes (p : String) : List String :=
  (ascJoins p).filter (· ≠ "")

/-- Strict ancestors of a path, ascending (`a`, `a/b` for `a/b/c`). -/
def strictAncestors (p : String) : List String :=
  (mkdirAllPrefixes p).dropLast

/-- Parent of a path: its longest strict ancestor, `""` for a
single-component (or root-level absolute) path. -/
def parentOf (p : String) : String :=
  (strictAncestors p).getLastD ""

/-! ## Local trees and the directory walk (`sshcmd.Client.WalkDir`)

A local tree is a file with contents or a directory with named children
listed in traversal (lexical) order, mirroring what
`filepath.WalkDir` visits.  `computeDsts` is the faithful translation of
the loop body of `Client.WalkDir`: it keeps a stack `dirs` of directory
base names, pops at most one entry when the current entry's directory
string does not end with the joined stack, computes the destination path
as `Join(dstDir, curDir, Base(path))`, and pushes the base name of every
directory entry. -/

mutual
inductive LocalEntry
  | file (content : String)
  | dir (children : LocalEntryList)
  deriving Repr, DecidableEq
inductive LocalEntryList
  | nil
  | cons (name : String) (entry : LocalEntry) (rest : LocalEntryList)
  deriving Repr, DecidableEq
end

mutual
/-- Preorder traversal of a local tree rooted at path `p`: every entry's
local path, whether it is a directory, and its file contents (walk order
of `filepath.WalkDir` with children in listed order). -/
def preorder (p : String) : LocalEntry → List (String × Bool × String)
  | .file content => [(p, false, content)]
  | .dir children => (p, true, "") :: preorderList p children
/-- Preorder traversal of a list of named children of the directory at
path `p`. -/
def preorderList (p : String) : LocalEntryList → List (String × Bool × String)
  | .nil => []
  | .cons n e rest => preorder (p ++ "/" ++ n) e ++ preorderList p rest
end

/-- One visited entry of the walk: local path, computed remote
destination path, directory flag and file contents. -/
structure Visit where
  localPath : String
  dst : String
  isDir : Bool
  content : String
  deriving Repr, DecidableEq

/-- The destination-path computation of `Client.WalkDir`, fed with the
preorder entry list: `dirs` is the maintained directory stack. -/
def computeDsts (dstDir : String) : List String → List (String × Bool × String) → List Visit
  | _, [] => []
  | dirs, (p, isDir, content) :: rest =>
    let curDir := filepathJoin dirs
    let d := dirPart p
    let dirs1 := if goHasSuffix d curDir then dirs else dirs.dropLast
    let curDir1 := if goHasSuffix d curDir then curDir else filepathJoin dirs1
    let dst := filepathJoin [dstDir, curDir1, basePart p]
    let dirs2 := if isDir then dirs1 ++ [basePart p] else dirs1
    ⟨p, dst, isDir, content⟩ :: computeDsts dstDir dirs2 rest

/-- Model of `Client.WalkDir srcPath dstDir`: visits in walk order with
their computed destination paths. -/
def walkVisits (dstDir srcPath : String) (root : LocalEntry) : List Visit :=
  computeDsts dstDir [] (preorder srcPath root)

/-- The tree `a/b/c/f1` plus `a/z`: walking it leaves two directory
levels (`c` and `b`) between visiting `a/b/c/f1` and `a/z`. -/
def c7Tree : LocalEntry :=
  .dir (.cons "b"
          (.dir (.cons "c"
                  (.dir (.cons "f1" (.file "x") .nil))
                  .nil))
          (.cons "z" (.file "y") .nil))

/-- C7: the walk pops its directory stack only once per entry, so after
leaving two nested directories the stack still holds a stale entry and
the computed remote path of `a/z` is `root/a/b/z` instead of the correct
relative-path join `root/a/z`. -/
theorem walkVisits_stack_bug :
    (walkVisits "root" "a" c7Tree).map Visit.dst
      = ["root/a", "root/a/b", "root/a/b/c", "root/a/b/c/f1", "root/a/b/z"]
    ∧ (walkVisits "root" "a" c7Tree).map Visit.localPath
      = ["a", "a/b", "a/b/c", "a/b/c/f1", "a/z"]
    ∧ filepathJoin ["root", "a/z"] = "root/a/z"
    ∧ ("root/a/b/z" : String) ≠ "root/a/z" := by
  refine ⟨rfl, rfl, rfl, by decide⟩

/-! ## Remote file-system model

The remote tree reachable over sftp is modelled as an association list
from paths to nodes (directory, or file with contents); lookups take the
first binding.  The sftp operations used by `CopyFile` and `DeleteFile`
are modelled by their documented semantics: `MkdirAll` creates every
missing directory along the path and fails on a file in the way;
`Create` truncates an existing file or creates a new one under an
existing parent directory; `Remove` deletes a file or an empty
directory; `RemoveDirectory` deletes an empty directory; failures of the
two removal operations are ignored by their callers in `DeleteFile`. -/

inductive RNode
  | dirNode
  | fileNode (content : String)
  deriving Repr, DecidableEq

/-- Remote file system: paths bound to nodes. -/
abbrev RemoteFs := List (String × RNode)

/-- Lookup of a path (first binding wins). -/
def fsLookup (p : String) : RemoteFs → Option RNode
  | [] => none
  | (q, n) :: rest => if q = p then some n else fsLookup p rest

/-- Remove every binding of a path. -/
def fsErase (p : String) (fs : RemoteFs) : RemoteFs :=
  fs.filter (fun e => e.1 ≠ p)

/-- Bind a path to a node, replacing previous bindings. -/
def fsInsert (p : String) (n : RNode) (fs : RemoteFs) : RemoteFs :=
  (p, n) :: fsErase p fs

/-- Does a directory path have any entry directly below it? -/
def fsHasChild (p : String) (fs : RemoteFs) : Bool :=
  fs.any (fun e => parentOf e.1 == p)

/-- Model of sftp `MkdirAll`: walk the ascending prefixes of the path,
keeping existing directories, creating missing ones, and failing on a
file in the way. -/
def mkdirAll (p : String) (fs : RemoteFs) : Except Unit RemoteFs :=
  (mkdirAllPrefixes p).foldlM
    (fun acc q =>
      match fsLookup q acc with
      | some .dirNode => .ok acc
      | some (.fileNode _) => .error ()
      | none => .ok (fsInsert q .dirNode acc))
    fs

/-- Model of sftp `Create` followed by writing the streamed contents:
truncate an existing file, create a new file when the parent directory
exists, fail on a directory or a missing parent. -/
def createFile (p content : String) (fs : RemoteFs) : Except Unit RemoteFs :=
  match fsLookup p fs with
  | some .dirNode => .error ()
  | some (.fileNode _) => .ok (fsInsert p (.fileNode content) fs)
  | none =>
    if parentOf p = "" ∨ fsLookup (parentOf p) fs = some .dirNode then
      .ok (fsInsert p (.fileNode content) fs)
    else .error ()

/-- Model of sftp `Remove` with its error ignored (as in `DeleteFile`):
delete a file, or an empty directory, else leave the tree unchanged. -/
def removePath (p : String) (fs : RemoteFs) : RemoteFs :=
  match fsLookup p fs with
  | some (.fileNode _) => fsErase p fs
  | some .dirNode => if fsHasChild p fs then fs else fsErase p fs
  | none => fs

/-- Model of sftp `RemoveDirectory` with its error ignored: delete an
empty directory, else leave the tree unchanged. -/
def removeDir (p : String) (fs : RemoteFs) : RemoteFs :=
  match fsLookup p fs with
  | some .dirNode => if fsHasChild p fs then fs else fsErase p fs
  | _ => fs

/-- Model of the `CopyFile` walk callback folded over the visits:
directories are `MkdirAll`-ed, files are created and filled; the first
failing operation aborts the walk with its error. -/
def copyVisits (fs : RemoteFs) : List Visit → Except Unit RemoteFs
  | [] => .ok fs
  | v :: rest => do
    let fs' ←
      if v.isDir then mkdirAll v.dst fs else createFile v.dst v.content fs
    copyVisits fs' rest

/-- Model of the `DeleteFile` walk: remove files immediately during the
walk (errors ignored), collect directories, then remove the collected
directories in reverse collection order (errors ignored). -/
def deleteVisits (fs : RemoteFs) (vs : List Visit) : RemoteFs :=
  let fs1 := vs.foldl (fun acc v => if v.isDir then acc else removePath v.dst acc) fs
  (((vs.filter (·.isDir)).map (·.dst)).reverse).foldl
    (fun acc d => removeDir d acc) fs1

/-- Model of `Service.CopyFile path workingDirectory`: copy the local
tree at `path` into the remote working directory. -/
def serviceCopyFile (fs : RemoteFs) (path workingDirectory : String)
    (tree : LocalEntry) : Except Unit RemoteFs :=
  copyVisits fs (walkVisits workingDirectory path tree)

/-- Model of `Service.DeleteFile path workingDirectory`: delete the
remote mirror of the local tree at `path`. -/
def serviceDeleteFile (fs : RemoteFs) (path workingDirectory : String)
    (tree : LocalEntry) : RemoteFs :=
  deleteVisits fs (walkVisits workingDirectory path tree)

/-- Local tree of the round-trip counterexample: a directory `a` holding
one file `f`. -/
def c3Tree : LocalEntry := .dir (.cons "f" (.file "x") .nil)

/-- C3 counterexample: when the remote tree already holds an empty
directory `root/a`, copying the local directory `a` creates only
`root/a/f` (the `MkdirAll` of the existing `root/a` is a no-op), but the
delete walk removes `root/a/f` and then also removes the pre-existing
directory `root/a` — a remote path the copy did not create — so the tree
under the root differs from its state before the copy. -/
theorem copyDelete_removes_preexisting_dir :
    serviceCopyFile [("root", .dirNode), ("root/a", .dirNode)] "a" "root" c3Tree
      = .ok [("root/a/f", .fileNode "x"), ("root", .dirNode), ("root/a", .dirNode)]
    ∧ fsLookup "root/a"
        (serviceDeleteFile
          [("root/a/f", .fileNode "x"), ("root", .dirNode), ("root/a", .dirNode)]
          "a" "root" c3Tree) = none
    ∧ fsLookup "root/a" [("root", .dirNode), ("root/a", .dirNode)]
        = some .dirNode := by
  refine ⟨rfl, rfl, rfl⟩

/-! ## Path decomposition lemmas -/

theorem splitOnChar_ne_nil (c : Char) (cs : List Char) : splitOnChar c cs ≠ [] := by
  cases cs with
  | nil => simp [splitOnChar]
  | cons x rest =>
    simp only [splitOnChar]
    match h : splitOnChar c rest with
    | [] => simp
    | h0 :: t => by_cases hx : x = c <;> simp [hx]

theorem joinChunks_splitOnChar (c : Char) (cs : List Char) :
    joinChunks c (splitOnChar c cs) = cs := by
  induction cs with
  | nil => rfl
  | cons x rest ih =>
    simp only [splitOnChar]
    match h : splitOnChar c rest with
    | [] => exact absurd h (splitOnChar_ne_nil c rest)
    | h0 :: t =>
      rw [h] at ih
      by_cases hx : x = c
      · subst hx
        simp only [if_pos rfl, joinChunks]
        match t with
        | [] => simpa [joinChunks] using congrArg (x :: ·) ih
        | t0 :: ts => simpa [joinChunks] using congrArg (x :: ·) ih
      · simp only [if_neg hx]
        match t with
        | [] => simpa [joinChunks] using congrArg (x :: ·) ih
        | t0 :: ts => simpa [joinChunks] using congrArg (x :: ·) ih

theorem joinChunks_append (c : Char) (ks1 ks2 : List (List Char))
    (h1 : ks1 ≠ []) (h2 : ks2 ≠ []) :
    joinChunks c (ks1 ++ ks2) = joinChunks c ks1 ++ c :: joinChunks c ks2 := by
  induction ks1 with
  | nil => exact absurd rfl h1
  | cons k ks ih =>
    cases ks with
    | nil =>
      cases ks2 with
      | nil => exact absurd rfl h2
      | cons k2 ks2' => simp [joinChunks]
    | cons k' ks' =>
      have ih' := ih (by simp)
      simp only [List.cons_append] at ih' ⊢
      simp [joinChunks, List.cons_append, List.append_assoc, ih']

theorem data_asString (l : List Char) : (List.asString l).data = l := rfl

theorem asString_data (p : String) : (p.data).asString = p := rfl

/-- The ascending prefix joins of a nonempty path split into the joins
of proper chunk ranges followed by the path itself. -/
theorem ascJoins_decomp (p : String) (_hp : p ≠ "") :
    ascJoins p
      = ((List.range ((pathChunks p).length - 1)).map
          (fun i => (joinChunks '/' ((pathChunks p).take (i + 1))).asString)) ++ [p] := by
  have hlen : (pathChunks p).length ≠ 0 := by
    intro h
    exact splitOnChar_ne_nil '/' p.data (List.length_eq_zero.mp h)
  obtain ⟨n, hn⟩ : ∃ n, (pathChunks p).length = n + 1 :=
    ⟨(pathChunks p).length - 1, (Nat.succ_pred_eq_of_pos (Nat.pos_of_ne_zero hlen)).symm⟩
  have hlast : (joinChunks '/' ((pathChunks p).take (n + 1))).asString = p := by
    rw [show (pathChunks p).take (n + 1) = pathChunks p from
      List.take_of_length_le (by rw [hn])]
    rw [pathChunks, joinChunks_splitOnChar, asString_data]
  rw [ascJoins, hn, List.range_succ, List.map_append]
  simp [hlast]

/-- Decomposition of the `MkdirAll` prefix list: the strict ancestors
followed by the path itself. -/
theorem mkPrefixes_decomp (p : String) (hp : p ≠ "") :
    mkdirAllPrefixes p = strictAncestors p ++ [p] := by
  simp only [strictAncestors, mkdirAllPrefixes, ascJoins_decomp p hp,
    List.filter_append]
  have hpfilter : List.filter (fun x => decide (x ≠ "")) [p] = [p] := by
    simp [hp]
  rw [hpfilter, List.dropLast_concat]

/-- The strict ancestors of a nonempty path are the nonempty proper
ascending joins. -/
theorem strictAncestors_eq (p : String) (hp : p ≠ "") :
    strictAncestors p
      = ((List.range ((pathChunks p).length - 1)).map
          (fun i => (joinChunks '/' ((pathChunks p).take (i + 1))).asString)).filter
          (· ≠ "") := by
  simp only [strictAncestors, mkdirAllPrefixes, ascJoins_decomp p hp,
    List.filter_append]
  have hpfilter : List.filter (fun x => decide (x ≠ "")) [p] = [p] := by
    simp [hp]
  rw [hpfilter, List.dropLast_concat]

/-- Every strict ancestor of a path is strictly shorter than the path
(as a character list), hence distinct from it. -/
theorem strictAncestors_shorter (p q : String) (hq : q ∈ strictAncestors p) :
    q.data.length < p.data.length := by
  by_cases hp : p = ""
  · subst hp
    simp [strictAncestors, mkdirAllPrefixes, ascJoins, pathChunks,
      splitOnChar, joinChunks, List.asString] at hq
  · rw [strictAncestors_eq p hp] at hq
    obtain ⟨i, hi, hqi⟩ := List.mem_map.mp (List.mem_of_mem_filter hq)
    rw [List.mem_range] at hi
    have hin : i + 1 < (pathChunks p).length := by omega
    have htne : (pathChunks p).take (i + 1) ≠ [] := by
      have h1 : ((pathChunks p).take (i + 1)).length = i + 1 := by
        rw [List.length_take]
        omega
      intro h0
      rw [h0] at h1
      simp at h1
    have hdne : (pathChunks p).drop (i + 1) ≠ [] := by
      intro h0
      have h1 := List.length_drop (i + 1) (pathChunks p)
      rw [h0] at h1
      simp at h1
      omega
    have hfull : p.data = joinChunks '/' ((pathChunks p).take (i + 1))
        ++ '/' :: joinChunks '/' ((pathChunks p).drop (i + 1)) := by
      conv_lhs => rw [show p.data = joinChunks '/' (pathChunks p) from
        (joinChunks_splitOnChar '/' p.data).symm]
      conv_lhs => rw [show pathChunks p
        = (pathChunks p).take (i + 1) ++ (pathChunks p).drop (i + 1) from
        (List.take_append_drop _ _).symm]
      rw [joinChunks_append '/' _ _ htne hdne]
    rw [← hqi, data_asString, hfull]
    simp

/-- The parent of a path is either empty or one of its strict
ancestors. -/
theorem parentOf_cases (p : String) :
    parentOf p = "" ∨ parentOf p ∈ strictAncestors p := by
  rw [parentOf]
  cases h : strictAncestors p with
  | nil => simp
  | cons a as =>
    right
    rw [List.getLastD_eq_getLast?, List.getLast?_eq_getLast (a :: as) (by simp)]
    exact List.getLast_mem _

/-! ## File-system operation lemmas -/

theorem fsLookup_erase (p q : String) (fs : RemoteFs) :
    fsLookup q (fsErase p fs) = if p = q then none else fsLookup q fs := by
  induction fs with
  | nil => simp [fsErase, fsLookup]
  | cons e rest ih =>
    obtain ⟨r, n⟩ := e
    simp only [fsErase, ne_eq, decide_not] at ih
    by_cases hr : r = p
    · subst hr
      by_cases hq : r = q
      · subst hq
        simp [fsErase, List.filter_cons, fsLookup, ne_eq, decide_not, ih]
      · simp [fsErase, List.filter_cons, fsLookup, ne_eq, decide_not, hq, ih]
    · by_cases hq : r = q
      · subst hq
        have hpq : ¬ p = r := fun h => hr h.symm
        simp [fsErase, List.filter_cons, fsLookup, ne_eq, decide_not, hr, hpq, ih]
      · simp [fsErase, List.filter_cons, fsLookup, ne_eq, decide_not, hr, hq, ih]

theorem fsLookup_insert (p q : String) (n : RNode) (fs : RemoteFs) :
    fsLookup q (fsInsert p n fs) = if p = q then some n else fsLookup q fs := by
  by_cases h : p = q
  · subst h
    simp [fsInsert, fsLookup]
  · simp only [fsInsert, fsLookup, if_neg h]
    rw [fsLookup_erase, if_neg h]

theorem fsLookup_isSome_of_mem (e : String × RNode) (fs : RemoteFs) (he : e ∈ fs) :
    (fsLookup e.1 fs).isSome = true := by
  induction fs with
  | nil => cases he
  | cons f rest ih =>
    rw [List.mem_cons] at he
    rcases he with he | he
    · subst he
      obtain ⟨q, m⟩ := e
      simp [fsLookup]
    · obtain ⟨q, m⟩ := f
      by_cases hf : q = e.1
      · simp [fsLookup, hf]
      · simp only [fsLookup, if_neg hf]
        exact ih he

theorem fsHasChild_iff (p : String) (fs : RemoteFs) :
    fsHasChild p fs = true ↔ ∃ e ∈ fs, parentOf e.1 = p := by
  simp [fsHasChild, List.any_eq_true]

/-- A present child witnessed through `fsLookup` instead of raw
entries. -/
theorem fsHasChild_lookup (p : String) (fs : RemoteFs)
    (h : fsHasChild p fs = true) :
    ∃ q, (fsLookup q fs).isSome = true ∧ parentOf q = p := by
  obtain ⟨e, he, hp⟩ := (fsHasChild_iff p fs).mp h
  exact ⟨e.1, fsLookup_isSome_of_mem e fs he, hp⟩

theorem removePath_file_lookup (p : String) (content : String) (fs : RemoteFs)
    (h : fsLookup p fs = some (.fileNode content)) (q : String) :
    fsLookup q (removePath p fs) = if p = q then none else fsLookup q fs := by
  rw [removePath, h, fsLookup_erase]

theorem removeDir_lookup (p : String) (fs : RemoteFs)
    (h : fsLookup p fs = some .dirNode) (hc : fsHasChild p fs = false)
    (q : String) :
    fsLookup q (removeDir p fs) = if p = q then none else fsLookup q fs := by
  rw [removeDir, h, hc]
  simp [fsLookup_erase]

/-! ## Visit lookup -/

/-- Node a visit creates remotely. -/
def visitNode (v : Visit) : RNode :=
  if v.isDir then .dirNode else .fileNode v.content

/-- Lookup of a destination path among a list of visits (first match
wins). -/
def visitLookup (ws : List Visit) (p : String) : Option RNode :=
  (ws.find? (fun v => v.dst == p)).map visitNode

theorem visitLookup_nil (p : String) : visitLookup [] p = none := rfl

theorem visitLookup_append_one (ws : List Visit) (v : Visit) (p : String) :
    visitLookup (ws ++ [v]) p
      = match visitLookup ws p with
        | some n => some n
        | none => if v.dst = p then some (visitNode v) else none := by
  rw [visitLookup, List.find?_append]
  cases h : ws.find? (fun v => v.dst == p) with
  | some w => simp [visitLookup, h, Option.or]
  | none =>
    by_cases hv : v.dst = p
    · simp [visitLookup, h, Option.or, List.find?, hv]
    · simp only [visitLookup, h, Option.or, List.find?]
      rw [show (v.dst == p) = false by simp [hv]]
      simp [hv]

theorem visitLookup_eq_none (ws : List Visit) (p : String)
    (h : ∀ v ∈ ws, v.dst ≠ p) : visitLookup ws p = none := by
  rw [visitLookup, List.find?_eq_none.mpr]
  · rfl
  · intro v hv
    simp [h v hv]

theorem visitLookup_isSome_iff (ws : List Visit) (p : String) :
    (∃ n, visitLookup ws p = some n) ↔ ∃ v ∈ ws, v.dst = p := by
  constructor
  · rintro ⟨n, hn⟩
    rw [visitLookup] at hn
    cases h : ws.find? (fun v => v.dst == p) with
    | none => rw [h] at hn; cases hn
    | some w =>
      have := List.find?_some h
      exact ⟨w, List.mem_of_find?_eq_some h, by simpa using this⟩
  · rintro ⟨v, hv, hdst⟩
    by_contra h0
    push_neg at h0
    have : visitLookup ws p ≠ none := by
      rw [visitLookup]
      cases h : ws.find? (fun v => v.dst == p) with
      | some w => simp
      | none =>
        have := List.find?_eq_none.mp h v hv
        simp [hdst] at this
    cases hlk : visitLookup ws p with
    | none => exact this hlk
    | some n => exact h0 n hlk

/-- With pairwise-distinct destinations, the lookup of a member visit's
destination finds exactly that visit's node. -/
theorem visitLookup_of_mem (ws : List Visit) (v : Visit)
    (hn : (ws.map (·.dst)).Nodup) (hv : v ∈ ws) :
    visitLookup ws v.dst = some (visitNode v) := by
  induction ws with
  | nil => cases hv
  | cons w rest ih =>
    rw [List.mem_cons] at hv
    rcases hv with hv | hv
    · subst hv
      simp [visitLookup, List.find?]
    · have hw : w.dst ≠ v.dst := by
        intro h0
        have : v.dst ∈ rest.map (·.dst) := List.mem_map_of_mem _ hv
        rw [List.map_cons, List.nodup_cons] at hn
        exact hn.1 (h0 ▸ this)
      have hn' : (rest.map (·.dst)).Nodup := by
        rw [List.map_cons, List.nodup_cons] at hn
        exact hn.2
      simp only [visitLookup, List.find?]
      rw [show (w.dst == v.dst) = false by simp [hw]]
      exact ih hn' hv

/-! ## Ancestor closure of a visit list

`ancOkB fs0 earlier pending` checks that every strict ancestor of every
pending visit's destination is either a directory already present in the
initial remote tree or the destination of an earlier directory visit
(visits in `earlier` or preceding it in `pending`).  The true walk
satisfies this because the stack join prefixes are exactly the
destinations of the already-visited directories. -/

def ancOkB (fs0 : RemoteFs) : List Visit → List Visit → Bool
  | _, [] => true
  | earlier, v :: rest =>
    ((strictAncestors v.dst).all (fun q =>
        (fsLookup q fs0 == some .dirNode)
        || earlier.any (fun u => u.isDir && u.dst == q)))
      && ancOkB fs0 (earlier ++ [v]) rest

theorem ancOkB_head (fs0 : RemoteFs) (earlier : List Visit) (v : Visit)
    (rest : List Visit) (h : ancOkB fs0 earlier (v :: rest) = true) :
    (∀ q ∈ strictAncestors v.dst,
      fsLookup q fs0 = some .dirNode ∨ ∃ u ∈ earlier, u.isDir = true ∧ u.dst = q)
    ∧ ancOkB fs0 (earlier ++ [v]) rest = true := by
  rw [ancOkB, Bool.and_eq_true] at h
  refine ⟨?_, h.2⟩
  intro q hq
  have := (List.all_eq_true.mp h.1) q hq
  rw [Bool.or_eq_true] at this
  rcases this with h1 | h1
  · left
    simpa using h1
  · right
    obtain ⟨u, hu, hflag⟩ := List.any_eq_true.mp h1
    rw [Bool.and_eq_true] at hflag
    exact ⟨u, hu, hflag.1, by simpa using hflag.2⟩

/-! ## Copy phase -/

/-- The `MkdirAll` fold is the identity over a list of paths that are
all present directories. -/
theorem mkdirFold_all_dirs (qs : List String) : ∀ (fs : RemoteFs),
    (∀ q ∈ qs, fsLookup q fs = some .dirNode) →
    qs.foldlM
      (fun acc q =>
        match fsLookup q acc with
        | some .dirNode => Except.ok acc
        | some (.fileNode _) => Except.error ()
        | none => Except.ok (fsInsert q .dirNode acc)) fs
      = .ok fs := by
  induction qs with
  | nil => intro fs _; rfl
  | cons a as ih =>
    intro fs h
    have ha : fsLookup a fs = some .dirNode := h a (by simp)
    rw [List.foldlM_cons, ha]
    simpa using ih fs (fun q hq => h q (by simp [hq]))

/-- `MkdirAll` on a path whose strict ancestors are all present
directories and which is itself absent creates exactly the path. -/
theorem mkdirAll_ok (p : String) (fs : RemoteFs) (hp : p ≠ "")
    (hanc : ∀ q ∈ strictAncestors p, fsLookup q fs = some .dirNode)
    (hm : fsLookup p fs = none) :
    mkdirAll p fs = .ok (fsInsert p .dirNode fs) := by
  rw [mkdirAll, mkPrefixes_decomp p hp, List.foldlM_append,
    mkdirFold_all_dirs (strictAncestors p) fs hanc]
  simp only [List.foldlM_cons, List.foldlM_nil, bind, Except.bind, hm]
  rfl

/-- `Create` on an absent path whose parent is present (or root-level)
creates exactly the file. -/
theorem createFile_ok (p content : String) (fs : RemoteFs)
    (hpar : parentOf p = "" ∨ fsLookup (parentOf p) fs = some .dirNode)
    (hm : fsLookup p fs = none) :
    createFile p content fs = .ok (fsInsert p (.fileNode content) fs) := by
  rw [createFile, hm]
  simp [hpar]

/-- Copy phase: starting from a state holding the initial tree plus the
already-processed visits, processing the pending visits succeeds and
adds exactly their destinations. -/
theorem copy_go (fs0 : RemoteFs) :
    ∀ (pending done : List Visit) (fs : RemoteFs),
    (∀ p, fsLookup p fs
       = match visitLookup done p with
         | some n => some n
         | none => fsLookup p fs0) →
    (∀ v ∈ done ++ pending, fsLookup v.dst fs0 = none ∧ v.dst ≠ "") →
    (((done ++ pending).map (·.dst)).Nodup) →
    ancOkB fs0 done pending = true →
    ∃ fs', copyVisits fs pending = .ok fs'
      ∧ ∀ p, fsLookup p fs'
          = match visitLookup (done ++ pending) p with
            | some n => some n
            | none => fsLookup p fs0 := by
  intro pending
  induction pending with
  | nil =>
    intro done fs hfs _ _ _
    exact ⟨fs, rfl, by simpa using hfs⟩
  | cons v rest ih =>
    intro done fs hfs hfresh hnodup hanc
    obtain ⟨hancv, hanc'⟩ := ancOkB_head fs0 done v rest hanc
    have hvfresh := hfresh v (by simp)
    have hsplitmap : ((done ++ v :: rest).map (·.dst)).Nodup := hnodup
    rw [List.map_append, List.nodup_append] at hsplitmap
    have hvnotdone : ∀ u ∈ done, u.dst ≠ v.dst := by
      intro u hu h0
      have h1 : v.dst ∈ done.map (·.dst) := h0 ▸ List.mem_map_of_mem _ hu
      exact hsplitmap.2.2 h1 (by simp)
    have hdone_nodup : (done.map (·.dst)).Nodup := hsplitmap.1
    have hlkv : fsLookup v.dst fs = none := by
      rw [hfs v.dst, visitLookup_eq_none done v.dst hvnotdone, hvfresh.1]
    have hancfs : ∀ q ∈ strictAncestors v.dst, fsLookup q fs = some .dirNode := by
      intro q hq
      rcases hancv q hq with h1 | ⟨u, hu, hudir, hudst⟩
      · have hnone : ∀ w ∈ done, w.dst ≠ q := by
          intro w hw h0
          have hwfresh := hfresh w (by simp [hw])
          rw [h0] at hwfresh
          rw [hwfresh.1] at h1
          cases h1
        rw [hfs q, visitLookup_eq_none done q hnone, h1]
      · have hulk := visitLookup_of_mem done u hdone_nodup hu
        rw [hfs q, ← hudst, hulk]
        simp [visitNode, hudir]
    -- the step inserts exactly the visit's node
    have hfs1 : ∀ p, fsLookup p (fsInsert v.dst (visitNode v) fs)
        = match visitLookup (done ++ [v]) p with
          | some n => some n
          | none => fsLookup p fs0 := by
      intro p
      rw [fsLookup_insert, visitLookup_append_one]
      by_cases hp : v.dst = p
      · subst hp
        rw [visitLookup_eq_none done v.dst hvnotdone]
        simp
      · rw [if_neg hp, hfs p]
        cases h : visitLookup done p with
        | some n => rfl
        | none => simp [hp]
    have hfresh' : ∀ u ∈ (done ++ [v]) ++ rest,
        fsLookup u.dst fs0 = none ∧ u.dst ≠ "" := by
      intro u hu
      apply hfresh
      simpa [List.append_assoc] using hu
    have hnodup' : (((done ++ [v]) ++ rest).map (·.dst)).Nodup := by
      simpa [List.append_assoc] using hnodup
    obtain ⟨fs', hrun, hchar⟩ :=
      ih (done ++ [v]) (fsInsert v.dst (visitNode v) fs) hfs1 hfresh' hnodup' hanc'
    refine ⟨fs', ?_, ?_⟩
    · cases hdirflag : v.isDir with
      | true =>
        have hop := mkdirAll_ok v.dst fs hvfresh.2 hancfs hlkv
        have : copyVisits fs (v :: rest)
            = copyVisits (fsInsert v.dst .dirNode fs) rest := by
          simp [copyVisits, hdirflag, hop, bind, Except.bind]
        rw [this]
        have hnode : visitNode v = .dirNode := by simp [visitNode, hdirflag]
        rw [hnode] at hrun
        exact hrun
      | false =>
        have hpar : parentOf v.dst = ""
            ∨ fsLookup (parentOf v.dst) fs = some .dirNode := by
          rcases parentOf_cases v.dst with h | h
          · exact Or.inl h
          · exact Or.inr (hancfs _ h)
        have hop := createFile_ok v.dst v.content fs hpar hlkv
        have : copyVisits fs (v :: rest)
            = copyVisits (fsInsert v.dst (.fileNode v.content) fs) rest := by
          simp [copyVisits, hdirflag, hop, bind, Except.bind]
        rw [this]
        have hnode : visitNode v = .fileNode v.content := by
          simp [visitNode, hdirflag]
        rw [hnode] at hrun
        exact hrun
    · intro p
      rw [hchar p]
      rw [show (done ++ [v]) ++ rest = done ++ v :: rest by simp]

/-! ## Delete phase -/

/-- File pass of the delete walk: removing the (pairwise-distinct,
present) file destinations removes exactly them. -/
theorem files_pass : ∀ (pending : List Visit) (fs : RemoteFs),
    (∀ v ∈ pending, v.isDir = false → fsLookup v.dst fs = some (.fileNode v.content)) →
    (((pending.filter (fun v => !v.isDir)).map (·.dst)).Nodup) →
    ∀ p, fsLookup p
        (pending.foldl (fun acc v => if v.isDir then acc else removePath v.dst acc) fs)
      = if p ∈ (pending.filter (fun v => !v.isDir)).map (·.dst) then none
        else fsLookup p fs := by
  intro pending
  induction pending with
  | nil => intro fs _ _ p; simp
  | cons v rest ih =>
    intro fs hlk hnodup p
    cases hdir : v.isDir with
    | true =>
      have hfilter : (v :: rest).filter (fun v => !v.isDir)
          = rest.filter (fun v => !v.isDir) := by
        simp [List.filter_cons, hdir]
      rw [List.foldl_cons, if_pos hdir, hfilter]
      rw [hfilter] at hnodup
      exact ih fs (fun u hu hf => hlk u (by simp [hu]) hf) hnodup p
    | false =>
      have hfilter : (v :: rest).filter (fun v => !v.isDir)
          = v :: rest.filter (fun v => !v.isDir) := by
        simp [List.filter_cons, hdir]
      rw [hfilter] at hnodup
      rw [List.map_cons, List.nodup_cons] at hnodup
      have hv := hlk v (by simp) hdir
      have hrm := removePath_file_lookup v.dst v.content fs hv
      rw [List.foldl_cons, if_neg (by simp [hdir])]
      have hrest : ∀ u ∈ rest, u.isDir = false →
          fsLookup u.dst (removePath v.dst fs) = some (.fileNode u.content) := by
        intro u hu hf
        rw [hrm u.dst]
        have hne : v.dst ≠ u.dst := by
          intro h0
          exact hnodup.1 (h0 ▸ List.mem_map_of_mem _
            (List.mem_filter.mpr ⟨hu, by simp [hf]⟩))
        rw [if_neg hne]
        exact hlk u (by simp [hu]) hf
      rw [ih (removePath v.dst fs) hrest hnodup.2 p, hfilter, List.map_cons]
      by_cases hpm : p ∈ (rest.filter (fun v => !v.isDir)).map (·.dst)
      · simp [hpm]
      · rw [if_neg hpm, hrm p]
        by_cases hpv : v.dst = p
        · subst hpv
          simp
        · rw [if_neg hpv, if_neg (by simp [hpm]; exact fun h => hpv h.symm)]

/-- Directory pass of the delete walk: removing the collected
directories in reverse collection order removes exactly them, provided
no directory precedes its parent in the collection, all are present,
and every present child of a collected directory is itself collected. -/
theorem dirs_pass (ds : List String) : ∀ (fs : RemoteFs),
    (∀ d ∈ ds, fsLookup d fs = some .dirNode) →
    ds.Nodup →
    (∀ d ∈ ds, d ≠ "") →
    List.Pairwise (fun a b => parentOf a ≠ b) ds →
    (∀ p d, (fsLookup p fs).isSome = true → parentOf p = d → d ∈ ds → p ∈ ds) →
    ∀ p, fsLookup p (ds.reverse.foldl (fun acc d => removeDir d acc) fs)
      = if p ∈ ds then none else fsLookup p fs := by
  induction ds using List.reverseRecOn with
  | nil => intro fs _ _ _ _ _ p; simp
  | append_singleton init d ih =>
    intro fs hpres hnodup hne hpw hclosed p
    have hdmem : d ∈ init ++ [d] := by simp
    have hdinit : d ∉ init := by
      intro h0
      rw [List.nodup_append] at hnodup
      exact hnodup.2.2 h0 (by simp)
    have hdne : d ≠ "" := hne d hdmem
    -- d has no present child
    have hnochild : fsHasChild d fs = false := by
      by_contra h0
      have h1 : fsHasChild d fs = true := by
        cases h2 : fsHasChild d fs with
        | true => rfl
        | false => exact absurd h2 h0
      obtain ⟨q, hqs, hqp⟩ := fsHasChild_lookup d fs h1
      have hqds := hclosed q d hqs hqp hdmem
      rw [List.mem_append] at hqds
      rcases hqds with hq | hq
      · -- a collected directory before d is a child of d
        rw [List.pairwise_append] at hpw
        exact hpw.2.2 q hq d (by simp) hqp
      · -- q = d: a path cannot be its own parent
        have hqd : q = d := by simpa using hq
        subst hqd
        rcases parentOf_cases q with h | h
        · rw [h] at hqp
          exact hdne hqp.symm
        · rw [hqp] at h
          exact absurd (strictAncestors_shorter q q h) (by omega)
    have hrm := removeDir_lookup d fs (hpres d hdmem) hnochild
    rw [List.reverse_append, List.reverse_singleton, List.singleton_append,
      List.foldl_cons]
    have hinit := ih (removeDir d fs)
      (fun d' hd' => by
        have hdd' : ¬ d = d' := by
          intro h0
          subst h0
          exact hdinit hd'
        rw [hrm d', if_neg hdd']
        exact hpres d' (by simp [hd']))
      (by rw [List.nodup_append] at hnodup; exact hnodup.1)
      (fun d' hd' => hne d' (by simp [hd']))
      (by rw [List.pairwise_append] at hpw; exact hpw.1)
      (fun q d' hqs hqp hd' => by
        have hq' : (fsLookup q fs).isSome = true := by
          rw [hrm q] at hqs
          by_cases h0 : d = q
          · rw [if_pos h0] at hqs
            cases hqs
          · rwa [if_neg h0] at hqs
        have hqne : q ≠ d := by
          intro h0
          rw [hrm q, if_pos h0.symm] at hqs
          cases hqs
        have := hclosed q d' hq' hqp (by simp [hd'])
        rw [List.mem_append] at this
        rcases this with h | h
        · exact h
        · have hqd : q = d := by simpa using h
          exact absurd hqd hqne)
    rw [hinit p]
    by_cases hpinit : p ∈ init
    · simp [hpinit]
    · rw [if_neg hpinit, hrm p]
      by_cases hpd : d = p
      · subst hpd
        simp
      · have hnotin : p ∉ init ++ [d] := by
          intro h0
          rw [List.mem_append] at h0
          rcases h0 with h0 | h0
          · exact hpinit h0
          · have hpd' : p = d := by simpa using h0
            exact hpd hpd'.symm
        rw [if_neg hpd, if_neg hnotin]

/-- A successful lookup names a present entry. -/
theorem mem_of_fsLookup_some (p : String) : ∀ (fs : RemoteFs) (n : RNode),
    fsLookup p fs = some n → ∃ e ∈ fs, e.1 = p := by
  intro fs
  induction fs with
  | nil => intro n h; cases h
  | cons e rest ih =>
    intro n h
    by_cases he : e.1 = p
    · exact ⟨e, by simp, he⟩
    · obtain ⟨q, m⟩ := e
      rw [fsLookup, if_neg he] at h
      obtain ⟨f, hf, hfp⟩ := ih n h
      exact ⟨f, by simp [hf], hfp⟩

/-- Under ancestor closure, freshness and distinctness, no directory
visit precedes a directory visit of its own parent. -/
theorem pairwise_parent (fs0 : RemoteFs) :
    ∀ (pending earlier : List Visit),
    ancOkB fs0 earlier pending = true →
    (∀ v ∈ earlier ++ pending, fsLookup v.dst fs0 = none ∧ v.dst ≠ "") →
    (((earlier ++ pending).map (·.dst)).Nodup) →
    List.Pairwise
      (fun u w => u.isDir = true → w.isDir = true → parentOf u.dst ≠ w.dst)
      pending := by
  intro pending
  induction pending with
  | nil => intro _ _ _ _; exact .nil
  | cons v rest ih =>
    intro earlier hanc hfresh hnodup
    obtain ⟨hancv, hanc'⟩ := ancOkB_head fs0 earlier v rest hanc
    constructor
    · intro w hw _ _ h0
      have hwfresh := hfresh w (by simp [hw])
      rcases parentOf_cases v.dst with hpc | hpc
      · rw [hpc] at h0
        exact hwfresh.2 h0.symm
      · rw [h0] at hpc
        rcases hancv w.dst hpc with h1 | ⟨u, hu, _, hudst⟩
        · rw [hwfresh.1] at h1
          cases h1
        · -- duplicate destination between an earlier visit and w
          rw [List.map_append, List.nodup_append] at hnodup
          have hmem1 : w.dst ∈ earlier.map (·.dst) := by
            rw [← hudst]
            exact List.mem_map_of_mem _ hu
          exact hnodup.2.2 hmem1
            (by
              rw [List.map_cons]
              exact List.mem_cons_of_mem _ (List.mem_map_of_mem _ hw))
    · exact ih (earlier ++ [v]) hanc'
        (fun u hu => hfresh u (by simpa [List.append_assoc] using hu))
        (by simpa [List.append_assoc] using hnodup)

/-- C3 (amended): copying a local tree into the remote tree and then
deleting it restores the remote tree exactly — the delete removes
exactly the set of remote paths the copy created and nothing else, with
files removed during the walk and directories afterwards in reverse
collection order, each before any directory visit of its parent —
provided the initial remote tree is parent-closed, none of the computed
destination paths (all nonempty) pre-exists remotely, the computed
destinations are pairwise distinct, and every strict ancestor of a
computed destination is a pre-existing remote directory or the
destination of an earlier directory visit (the directory-stack defect of
the walk, see the stack-bug theorem, can violate the last two
conditions; an intact walk of a fresh tree satisfies them). -/
theorem copyFile_deleteFile_roundTrip (fs0 : RemoteFs) (path wd : String)
    (tree : LocalEntry)
    (hwf : ∀ e ∈ fs0, parentOf e.1 = ""
      ∨ fsLookup (parentOf e.1) fs0 = some .dirNode)
    (hfresh : ∀ v ∈ walkVisits wd path tree,
      fsLookup v.dst fs0 = none ∧ v.dst ≠ "")
    (hnodup : ((walkVisits wd path tree).map (·.dst)).Nodup)
    (hanc : ancOkB fs0 [] (walkVisits wd path tree) = true) :
    ∃ fs1, serviceCopyFile fs0 path wd tree = .ok fs1
      ∧ (∀ p, fsLookup p fs1
          = match visitLookup (walkVisits wd path tree) p with
            | some n => some n
            | none => fsLookup p fs0)
      ∧ (∀ p, fsLookup p (serviceDeleteFile fs1 path wd tree) = fsLookup p fs0)
      ∧ List.Pairwise (fun a b => parentOf b ≠ a)
          (((walkVisits wd path tree).filter (·.isDir)).map (·.dst)).reverse := by
  set vs := walkVisits wd path tree with hvs
  obtain ⟨fs1, hrun, hchar⟩ :=
    copy_go fs0 vs [] fs0 (fun p => rfl) (by simpa using hfresh)
      (by simpa using hnodup) hanc
  rw [List.nil_append] at hchar
  -- pairwise fact over the visits
  have hpw0 := pairwise_parent fs0 vs [] hanc (by simpa using hfresh)
    (by simpa using hnodup)
  have hpwdirs : List.Pairwise (fun a b => parentOf a ≠ b)
      ((vs.filter (·.isDir)).map (·.dst)) := by
    rw [List.pairwise_map]
    refine List.Pairwise.imp_of_mem ?_ (List.Pairwise.filter _ hpw0)
    intro u w hu hw h
    exact h (List.mem_filter.mp hu).2 (List.mem_filter.mp hw).2
  -- distinctness of the directory and file destination sublists
  have hdirs_nodup : ((vs.filter (·.isDir)).map (·.dst)).Nodup :=
    ((List.filter_sublist vs).map (·.dst)).nodup hnodup
  have hfiles_nodup : ((vs.filter (fun v => !v.isDir)).map (·.dst)).Nodup :=
    ((List.filter_sublist vs).map (·.dst)).nodup hnodup
  have hinj := List.inj_on_of_nodup_map hnodup
  -- files pass
  have hfs2 := files_pass vs fs1
    (fun v hv hf => by
      rw [hchar v.dst, visitLookup_of_mem vs v hnodup hv]
      simp [visitNode, hf])
    hfiles_nodup
  set fs2 := vs.foldl (fun acc v => if v.isDir then acc else removePath v.dst acc) fs1
    with hfs2def
  -- directory pass hypotheses
  have hdisj : ∀ p, p ∈ (vs.filter (·.isDir)).map (·.dst) →
      p ∉ (vs.filter (fun v => !v.isDir)).map (·.dst) := by
    intro p hpd hpf
    obtain ⟨u, hu, hud⟩ := List.mem_map.mp hpd
    obtain ⟨w, hw, hwd⟩ := List.mem_map.mp hpf
    have hu' := List.mem_filter.mp hu
    have hw' := List.mem_filter.mp hw
    have : u = w := hinj hu'.1 hw'.1 (by rw [hud, hwd])
    rw [this] at hu'
    rw [hu'.2] at hw'
    simp at hw'
  have hdirs_pres : ∀ d ∈ (vs.filter (·.isDir)).map (·.dst),
      fsLookup d fs2 = some .dirNode := by
    intro d hd
    rw [hfs2 d, if_neg (hdisj d hd)]
    obtain ⟨u, hu, hud⟩ := List.mem_map.mp hd
    have hu' := List.mem_filter.mp hu
    rw [hchar d, ← hud, visitLookup_of_mem vs u hnodup hu'.1]
    simp [visitNode, hu'.2]
  have hdirs_ne : ∀ d ∈ (vs.filter (·.isDir)).map (·.dst), d ≠ "" := by
    intro d hd
    obtain ⟨u, hu, hud⟩ := List.mem_map.mp hd
    have hu' := List.mem_filter.mp hu
    rw [← hud]
    exact (hfresh u hu'.1).2
  have hclosed : ∀ p d, (fsLookup p fs2).isSome = true → parentOf p = d →
      d ∈ (vs.filter (·.isDir)).map (·.dst) →
      p ∈ (vs.filter (·.isDir)).map (·.dst) := by
    intro p d hps hpp hd
    obtain ⟨u, hu, hud⟩ := List.mem_map.mp hd
    have hu' := List.mem_filter.mp hu
    have hdfresh : fsLookup d fs0 = none := by
      rw [← hud]
      exact (hfresh u hu'.1).1
    have hdne : d ≠ "" := hdirs_ne d hd
    rw [hfs2 p] at hps
    by_cases hpf : p ∈ (vs.filter (fun v => !v.isDir)).map (·.dst)
    · rw [if_pos hpf] at hps
      cases hps
    · rw [if_neg hpf, hchar p] at hps
      cases hlk : visitLookup vs p with
      | some n =>
        obtain ⟨w, hw, hwd⟩ := (visitLookup_isSome_iff vs p).mp ⟨n, hlk⟩
        cases hwdir : w.isDir with
        | true =>
          rw [← hwd]
          exact List.mem_map_of_mem _ (List.mem_filter.mpr ⟨hw, hwdir⟩)
        | false =>
          exact absurd (hwd ▸ List.mem_map_of_mem (·.dst)
            (List.mem_filter.mpr ⟨hw, by simp [hwdir]⟩)) hpf
      | none =>
        -- p pre-exists: its parent is a pre-existing directory, never a
        -- fresh destination
        rw [hlk] at hps
        exfalso
        have hp0 : ∃ e ∈ fs0, e.1 = p := by
          cases hlk0 : fsLookup p fs0 with
          | none => rw [hlk0] at hps; cases hps
          | some n => exact mem_of_fsLookup_some p fs0 n hlk0
        obtain ⟨e, he, hep⟩ := hp0
        rcases hwf e he with h | h
        · rw [hep, hpp] at h
          exact hdne h
        · rw [hep, hpp] at h
          rw [hdfresh] at h
          cases h
  -- assemble
  refine ⟨fs1, hrun, hchar, ?_, by rw [List.pairwise_reverse]; exact hpwdirs⟩
  intro p
  have hdel : serviceDeleteFile fs1 path wd tree
      = ((vs.filter (·.isDir)).map (·.dst)).reverse.foldl
          (fun acc d => removeDir d acc) fs2 := rfl
  rw [hdel, dirs_pass ((vs.filter (·.isDir)).map (·.dst)) fs2 hdirs_pres
    hdirs_nodup hdirs_ne hpwdirs hclosed p]
  by_cases hpd : p ∈ (vs.filter (·.isDir)).map (·.dst)
  · rw [if_pos hpd]
    obtain ⟨u, hu, hud⟩ := List.mem_map.mp hpd
    have hu' := List.mem_filter.mp hu
    rw [← hud]
    exact ((hfresh u hu'.1).1).symm
  · rw [if_neg hpd, hfs2 p]
    by_cases hpf : p ∈ (vs.filter (fun v => !v.isDir)).map (·.dst)
    · rw [if_pos hpf]
      obtain ⟨u, hu, hud⟩ := List.mem_map.mp hpf
      have hu' := List.mem_filter.mp hu
      rw [← hud]
      exact ((hfresh u hu'.1).1).symm
    · rw [if_neg hpf, hchar p]
      cases hlk : visitLookup vs p with
      | some n =>
        obtain ⟨w, hw, hwd⟩ := (visitLookup_isSome_iff vs p).mp ⟨n, hlk⟩
        exfalso
        cases hwdir : w.isDir with
        | true =>
          exact hpd (hwd ▸ List.mem_map_of_mem (·.dst)
            (List.mem_filter.mpr ⟨hw, hwdir⟩))
        | false =>
          exact hpf (hwd ▸ List.mem_map_of_mem (·.dst)
            (List.mem_filter.mpr ⟨hw, by simp [hwdir]⟩))
      | none => rfl

/-- Local tree used by the round-trip witness: `a/b/f` and `a/g` (the
walk ascends one directory level between `a/b/f` and `a/g`). -/
def rtTree : LocalEntry :=
  .dir (.cons "b" (.dir (.cons "f" (.file "x") .nil))
        (.cons "g" (.file "y") .nil))

set_option maxRecDepth 4000 in
/-- Witness for `copyFile_deleteFile_roundTrip`: mirroring `a/{b/f, g}`
into an existing empty `root` and deleting it again restores the tree. -/
theorem copyFile_deleteFile_roundTrip_witness :
    ∃ fs1, serviceCopyFile [("root", .dirNode)] "a" "root" rtTree = .ok fs1
      ∧ (∀ p, fsLookup p fs1
          = match visitLookup (walkVisits "root" "a" rtTree) p with
            | some n => some n
            | none => fsLookup p [("root", .dirNode)])
      ∧ (∀ p, fsLookup p (serviceDeleteFile fs1 "a" "root" rtTree)
          = fsLookup p [("root", .dirNode)])
      ∧ List.Pairwise (fun a b => parentOf b ≠ a)
          (((walkVisits "root" "a" rtTree).filter (·.isDir)).map (·.dst)).reverse :=
  copyFile_deleteFile_roundTrip [("root", .dirNode)] "a" "root" rtTree
    (by decide) (by decide) (by decide) (by decide)

/-! ## Uninstall file deletion (`Service.DeleteFiles`)

`DeleteFiles` deletes the mirrored auxiliary trees (warnings on
failures), and — only when the remove-working-directory flag is set —
deletes the configured log file (when any) and removes the working
directory through `DeleteDirIfEmpty`, the latter only when the working
directory differs from the remote home directory recorded in the service
at materialization (`Runner.MakeService` stores the remote `pwd`
output). -/

inductive UninstallAction
  | walkDeleted (localPath workingDirectory : String)
  | removedLog (logPath : String)
  | removedWorkdir (dirPath : String)
  deriving Repr, DecidableEq

/-- Remote actions performed by `Service.DeleteFiles` in order. -/
def deleteFilesActions (c : Conf) (remoteHomeDir : String)
    (removeWorkingDirectory : Bool) : List UninstallAction :=
  (c.CopyFiles.map (fun p => .walkDeleted p c.WorkingDirectory))
  ++ (if removeWorkingDirectory then
        (if c.LogPath ≠ "" then [.removedLog c.LogPath] else [])
        ++ (if c.WorkingDirectory ≠ remoteHomeDir then
              [.removedWorkdir c.WorkingDirectory]
            else [])
      else [])

/-- C5: the working directory is removed exactly when the
remove-working-directory flag is set and it differs from the remote home
directory recorded at service materialization; in particular no
uninstall run ever removes the remote home directory itself. -/
theorem deleteFiles_workdir_guard (c : Conf) (home : String) (flag : Bool) :
    (UninstallAction.removedWorkdir home ∉ deleteFilesActions c home flag)
    ∧ (∀ p, UninstallAction.removedWorkdir p ∈ deleteFilesActions c home flag
        ↔ flag = true ∧ p = c.WorkingDirectory ∧ c.WorkingDirectory ≠ home) := by
  have hmem : ∀ p, UninstallAction.removedWorkdir p ∈ deleteFilesActions c home flag
      ↔ flag = true ∧ p = c.WorkingDirectory ∧ c.WorkingDirectory ≠ home := by
    intro p
    rw [deleteFilesActions]
    constructor
    · intro h
      rw [List.mem_append] at h
      rcases h with h | h
      · obtain ⟨q, _, hq⟩ := List.mem_map.mp h
        cases hq
      · cases hflag : flag with
        | false => rw [hflag] at h; cases h
        | true =>
          rw [hflag] at h
          simp only [if_true] at h
          rw [List.mem_append] at h
          rcases h with h | h
          · by_cases hl : c.LogPath ≠ ""
            · rw [if_pos hl] at h
              rcases List.mem_singleton.mp h with h
              cases h
            · rw [if_neg hl] at h
              cases h
          · by_cases hw : c.WorkingDirectory ≠ home
            · rw [if_pos hw] at h
              have := List.mem_singleton.mp h
              cases this
              exact ⟨rfl, rfl, hw⟩
            · rw [if_neg hw] at h
              cases h
    · rintro ⟨hflag, hp, hw⟩
      subst hflag hp
      rw [List.mem_append]
      right
      simp only [if_true]
      rw [List.mem_append]
      right
      rw [if_pos hw]
      simp
  refine ⟨?_, hmem⟩
  intro h
  obtain ⟨_, hp, hw⟩ := (hmem home).mp h
  exact hw hp.symm

/-- Witness for `deleteFiles_workdir_guard`: a configuration whose
working directory equals the recorded home directory performs no
working-directory removal even with the flag set, and one with a
distinct working directory removes exactly it. -/
theorem deleteFiles_workdir_guard_witness :
    (UninstallAction.removedWorkdir "/home/u"
      ∉ deleteFilesActions { WorkingDirectory := "/home/u" } "/home/u" true)
    ∧ (UninstallAction.removedWorkdir "/srv/app"
        ∈ deleteFilesActions { WorkingDirectory := "/srv/app" } "/home/u" true) :=
  ⟨(deleteFiles_workdir_guard { WorkingDirectory := "/home/u" } "/home/u" true).1,
   ((deleteFiles_workdir_guard { WorkingDirectory := "/srv/app" } "/home/u" true).2
      "/srv/app").mpr ⟨rfl, rfl, by decide⟩⟩

end God
